import Mathlib

/-!
Verification of the animation-data temporal indexing engine.

This file gives a shallow embedding of the core of the repository:
the bucketed timeline index over entity paths (`EntityPathManager`),
the statistics lookup / interpolation / summary logic
(`StatisticsManager`), the JSON content cache (`CacheManager`) and the
replication catalog (`ReplicationManager`), together with theorems about
their query operations.

Modelling conventions:
* JavaScript numbers are modelled as `ℚ` (the claims under study concern
  exact linear interpolation and comparisons, not float rounding).
* A JavaScript `Map` is modelled as an association list; `Map.set`
  replaces an existing binding in place and otherwise appends, which
  preserves the `Map` iteration order (insertion order).
* A JavaScript `Set` is modelled as a duplicate-free list in insertion
  order.
* The string bucket keys `bucket_${b}` are modelled by their integer
  bucket number `b` (the rendering `b ↦ "bucket_" ++ toString b` is
  injective, so nothing is lost).
* Asynchronous file reading is modelled by an explicit environment
  `env : String → Option _` giving the parsed document for each path;
  `Promise.all` over a list of loads is modelled as the sequential fold
  of the individual merges, which is how the merges execute once each
  read completes.
-/

namespace AnimationData

/-- Model of `Map.get`: the value bound to the first matching key. -/
def mapLookup {α β : Type} [DecidableEq α] : List (α × β) → α → Option β
  | [], _ => none
  | (k, v) :: rest, a => if a = k then some v else mapLookup rest a

/-- Model of `Map.set`: replace the binding in place, or append a new one. -/
def mapSet {α β : Type} [DecidableEq α] : List (α × β) → α → β → List (α × β)
  | [], k, v => [(k, v)]
  | (k', v') :: rest, k, v =>
    if k = k' then (k, v) :: rest else (k', v') :: mapSet rest k v

/-- Model of `Set.add`: append the element unless it is already present. -/
def setAdd {α : Type} [DecidableEq α] (s : List α) (x : α) : List α :=
  if x ∈ s then s else s ++ [x]

/-- `lastD l d` is the last element of `l`, or `d` when `l` is empty; it
models the access `arr[arr.length - 1]` applied to `d :: l`. -/
def lastD {α : Type} : List α → α → α
  | [], d => d
  | x :: xs, _ => lastD xs x

/-- A path point as decoded by `EntityPathManager.loadEntityPathBatch`
(source interface `PathPoint` in `entityPath.types.ts`; `componentId` and
`attributes` are never consulted by the embedded operations). -/
structure PathPoint where
  clock : ℚ
  x : ℚ
  y : ℚ
  event : Option String
  state : String
  deriving DecidableEq, Repr

/-- An entity's path (source interface `EntityPath`).  The source
interface also admits a callable `entityId`; `updateTimelineIndex`
resolves it to a plain string, which is how it is modelled here. -/
structure EntityPath where
  entityId : String
  type : String
  path : List PathPoint
  deriving DecidableEq, Repr

/-- A raw point of an entity-path batch file (the `path` element type of
the `EntityPathBatch` interface). -/
structure BatchPathPoint where
  x : ℚ
  y : ℚ
  time : ℚ
  activity : String
  state : String
  duration : ℚ
  deriving DecidableEq, Repr

/-- A raw entity record of an entity-path batch file. -/
structure BatchEntity where
  id : String
  type : String
  entryTime : ℚ
  path : List BatchPathPoint
  deriving DecidableEq, Repr

/-- An entity-path batch file (source interface `EntityPathBatch`); the
`metadata` block is never consulted by the embedded operations and is
omitted. -/
structure EntityPathBatch where
  entities : List BatchEntity
  deriving DecidableEq, Repr

/-- Entity-path file descriptor from the manifest (source interface
`EntityPathDataFileInfo`). -/
structure EntityPathDataFileInfo where
  filePath : String
  entryTimeStart : ℚ
  entryTimeEnd : ℚ
  entityCount : Option ℕ
  deriving DecidableEq, Repr

/-- The point conversion performed by `loadEntityPathBatch`:
`clock := point.time`, `event := point.activity || undefined` (a falsy,
i.e. empty, activity string becomes `undefined`). -/
def toPathPoint (pt : BatchPathPoint) : PathPoint :=
  { clock := pt.time
    x := pt.x
    y := pt.y
    event := if pt.activity = "" then none else some pt.activity
    state := pt.state }

/-- The entity conversion performed by `loadEntityPathBatch`. -/
def toEntityPath (e : BatchEntity) : EntityPath :=
  { entityId := e.id
    type := e.type
    path := e.path.map toPathPoint }

/-- The mutable state of `EntityPathManager`. -/
structure EntityPathManagerState where
  loadedEntityPathBatches : List (String × EntityPathBatch)
  entityPathsById : List (String × EntityPath)
  timelineIndex : List (ℤ × List String)
  deriving DecidableEq, Repr

/-- A freshly constructed `EntityPathManager`. -/
def initialEPM : EntityPathManagerState := ⟨[], [], []⟩

/-- `BUCKET_SIZE = 10`; `bucketOf t = Math.floor(t / BUCKET_SIZE)`. -/
def bucketOf (t : ℚ) : ℤ := ⌊t / 10⌋

/-- The buckets visited by `for (let b = s; b <= e; b++)`. -/
def bucketRange (s e : ℤ) : List ℤ :=
  (List.range (e - s + 1).toNat).map (fun (n : ℕ) => s + (n : ℤ))

/-- One step of `updateTimelineIndex`: add `id` to the bucket set for
`b`, creating the set when absent. -/
def indexAdd (idx : List (ℤ × List String)) (b : ℤ) (id : String) :
    List (ℤ × List String) :=
  mapSet idx b (setAdd ((mapLookup idx b).getD []) id)

/-- The body of `updateTimelineIndex` for one entity path: skip empty
paths, then add the entity id to every bucket spanned by
`[path[0].clock, path[last].clock]`. -/
def indexEntity (idx : List (ℤ × List String)) (ep : EntityPath) :
    List (ℤ × List String) :=
  match ep.path with
  | [] => idx
  | firstPoint :: rest =>
    let lastPoint := lastD rest firstPoint
    (bucketRange (bucketOf firstPoint.clock) (bucketOf lastPoint.clock)).foldl
      (fun i b => indexAdd i b ep.entityId) idx

/-- `EntityPathManager.updateTimelineIndex`. -/
def updateTimelineIndex (idx : List (ℤ × List String))
    (entityPaths : List EntityPath) : List (ℤ × List String) :=
  entityPaths.foldl indexEntity idx

/-- `EntityPathManager.preprocessEntityPaths`: clear the index and
rebuild it from all loaded entity paths. -/
def preprocessEntityPaths (s : EntityPathManagerState) : EntityPathManagerState :=
  { s with timelineIndex := updateTimelineIndex [] (s.entityPathsById.map Prod.snd) }

/-- `EntityPathManager.clearEntityPathData`. -/
def clearEntityPathData (_s : EntityPathManagerState) : EntityPathManagerState :=
  ⟨[], [], []⟩

/-- `EntityPathManager.loadEntityPathBatch`.  `env` gives the parsed
batch for each file path (`undefined` on read or parse failure). -/
def loadEntityPathBatch (env : String → Option EntityPathBatch)
    (s : EntityPathManagerState) (fileInfo : EntityPathDataFileInfo) :
    EntityPathManagerState :=
  if (mapLookup s.loadedEntityPathBatches fileInfo.filePath).isSome then s
  else
    match env fileInfo.filePath with
    | none => s
    | some batchData =>
      let batches := mapSet s.loadedEntityPathBatches fileInfo.filePath batchData
      let newPaths := batchData.entities.foldl
        (fun m e => mapSet m e.id (toEntityPath e)) s.entityPathsById
      { loadedEntityPathBatches := batches
        entityPathsById := newPaths
        timelineIndex := updateTimelineIndex s.timelineIndex (newPaths.map Prod.snd) }

/-- `EntityPathManager.getLoadedEntityIds`. -/
def getLoadedEntityIds (s : EntityPathManagerState) : List String :=
  s.entityPathsById.map Prod.fst

/-- `EntityPathManager.getEntityPath`. -/
def getEntityPath (s : EntityPathManagerState) (entityId : String) :
    Option EntityPath :=
  mapLookup s.entityPathsById entityId

/-- Result record of `getEntityStateAtTime`. -/
structure EntityStateResult where
  state : String
  x : ℚ
  y : ℚ
  deriving DecidableEq, Repr

/-- The exact-match scan `for (const point of path) if (point.clock === time)`. -/
def findExactPoint (path : List PathPoint) (t : ℚ) : Option PathPoint :=
  path.find? (fun p => decide (p.clock = t))

/-- The bracketing scan
`for i: if (path[i].clock <= time && path[i+1].clock >= time)`,
shared by `getEntityStateAtTime` and `getStatisticValueAtTime`. -/
def scanBracket {α : Type} (f : α → ℚ) : List α → ℚ → Option (α × α)
  | p1 :: p2 :: rest, t =>
    if f p1 ≤ t ∧ f p2 ≥ t then some (p1, p2) else scanBracket f (p2 :: rest) t
  | _, _ => none

/-- `EntityPathManager.getEntityStateAtTime`. -/
def getEntityStateAtTime (s : EntityPathManagerState) (entityId : String)
    (time : ℚ) : Option EntityStateResult :=
  match mapLookup s.entityPathsById entityId with
  | none => none
  | some entityPath =>
    match entityPath.path with
    | [] => none
    | firstPoint :: rest =>
      let lastPoint := lastD rest firstPoint
      if time < firstPoint.clock ∨ time > lastPoint.clock then none
      else
        match findExactPoint (firstPoint :: rest) time with
        | some point => some ⟨point.state, point.x, point.y⟩
        | none =>
          match scanBracket PathPoint.clock (firstPoint :: rest) time with
          | none => none
          | some (beforePoint, afterPoint) =>
            let tr := (time - beforePoint.clock) / (afterPoint.clock - beforePoint.clock)
            some ⟨beforePoint.state,
                  beforePoint.x + tr * (afterPoint.x - beforePoint.x),
                  beforePoint.y + tr * (afterPoint.y - beforePoint.y)⟩

/-- One step of the bucket-collection loop of `getEntitiesInTimeRange`:
add every id of bucket `b` to the candidate set. -/
def collectStep (s : EntityPathManagerState) (acc : List String) (b : ℤ) :
    List String :=
  match mapLookup s.timelineIndex b with
  | some ids => ids.foldl setAdd acc
  | none => acc

/-- The bucket-collection phase of `getEntitiesInTimeRange`: union of the
id sets of every bucket spanned by `[startTime, endTime]`. -/
def collectBucketIds (s : EntityPathManagerState) (startBucket endBucket : ℤ) :
    List String :=
  (bucketRange startBucket endBucket).foldl (collectStep s) []

/-- One step of the exact overlap filter of `getEntitiesInTimeRange`:
keep a candidate whose path satisfies
`first.clock <= endTime && last.clock >= startTime`. -/
def rangeFilterStep (s : EntityPathManagerState) (startTime endTime : ℚ)
    (result : List (String × EntityPath)) (entityId : String) :
    List (String × EntityPath) :=
  match mapLookup s.entityPathsById entityId with
  | none => result
  | some entityPath =>
    match entityPath.path with
    | [] => result
    | firstPoint :: rest =>
      if firstPoint.clock ≤ endTime ∧ (lastD rest firstPoint).clock ≥ startTime
      then mapSet result entityId entityPath
      else result

/-- `EntityPathManager.getEntitiesInTimeRange`: bucket candidates, then
the exact interval-overlap filter. -/
def getEntitiesInTimeRange (s : EntityPathManagerState)
    (startTime endTime : ℚ) : List (String × EntityPath) :=
  (collectBucketIds s (bucketOf startTime) (bucketOf endTime)).foldl
    (rangeFilterStep s startTime endTime) []

/-- The exact-overlap condition a candidate id must pass in
`getEntitiesInTimeRange` (and, entity-wise, the condition of the naive
reference scan). -/
def RangePass (s : EntityPathManagerState) (startTime endTime : ℚ)
    (id : String) : Prop :=
  ∃ ep firstPoint rest, mapLookup s.entityPathsById id = some ep ∧
    ep.path = firstPoint :: rest ∧ firstPoint.clock ≤ endTime ∧
    (lastD rest firstPoint).clock ≥ startTime

/-- Whether an entity's lifetime spans bucket `b` — the bucket
membership rule of `updateTimelineIndex`. -/
def coversBucket (ep : EntityPath) (b : ℤ) : Prop :=
  match ep.path with
  | [] => False
  | firstPoint :: rest =>
    bucketOf firstPoint.clock ≤ b ∧ b ≤ bucketOf (lastD rest firstPoint).clock

/-- Modelled from the spec: the naive reference for the range query —
scan every loaded entity and keep those with
`first.clock <= end && last.clock >= start`. -/
def naiveEntitiesInTimeRange (entities : List (String × EntityPath))
    (startTime endTime : ℚ) : List (String × EntityPath) :=
  entities.filter (fun kv =>
    match kv.2.path with
    | [] => false
    | firstPoint :: rest =>
      decide (firstPoint.clock ≤ endTime) &&
        decide ((lastD rest firstPoint).clock ≥ startTime))

/-- `EntityPathManager.getEntityIdsAtTime`.  The source reads `path[0]`
and `path[path.length - 1]` without an emptiness guard; the empty-path
arm below marks exactly the access that would throw in JavaScript. -/
def getEntityIdsAtTime (s : EntityPathManagerState) (time : ℚ) : List String :=
  let s1 := if s.timelineIndex = [] then preprocessEntityPaths s else s
  let potential := (mapLookup s1.timelineIndex (bucketOf time)).getD []
  potential.foldl
    (fun active entityId =>
      match mapLookup s1.entityPathsById entityId with
      | none => active
      | some entityPath =>
        match entityPath.path with
        | [] => active
        | firstPoint :: rest =>
          if firstPoint.clock ≤ time ∧ (lastD rest firstPoint).clock ≥ time
          then setAdd active entityId
          else active) []

/-- `EntityPathManager.getEntitiesByType`. -/
def getEntitiesByType (s : EntityPathManagerState) (entityType : String) :
    List (String × EntityPath) :=
  s.entityPathsById.foldl
    (fun result kv => if kv.2.type = entityType then mapSet result kv.1 kv.2 else result) []

/-- Statistics file descriptor from the manifest (source interface
`StatisticsDataFileInfo`). -/
structure StatisticsDataFileInfo where
  type : String
  componentId : Option String
  metricName : String
  filePath : String
  timeStart : ℚ
  timeEnd : ℚ
  deriving DecidableEq, Repr

/-- Manifest metadata (source interface `ReplicationManifestMetadata`). -/
structure ReplicationManifestMetadata where
  formatVersion : String
  simulationId : String
  replication : ℤ
  name : Option String
  duration : ℚ
  timeUnit : String
  modelLayoutPath : String
  sharedVisualConfigPath : String
  backgroundSvgPath : String
  deriving DecidableEq, Repr

/-- A replication manifest (source interface `ReplicationManifestData`). -/
structure ReplicationManifestData where
  metadata : ReplicationManifestMetadata
  entityPathDataFiles : List EntityPathDataFileInfo
  statisticsDataFiles : List StatisticsDataFileInfo
  deriving DecidableEq, Repr

/-- The mutable state of `ReplicationManager` (the shared
layout/visual-config documents are not consulted by any claim and are
omitted). -/
structure ReplicationManagerState where
  availableReplications : List (ℤ × ReplicationManifestData)
  activeReplicationId : Option ℤ
  deriving DecidableEq, Repr

/-- `ReplicationManager.setActiveReplicationId`. -/
def setActiveReplicationId (r : ReplicationManagerState) (replicationId : ℤ) :
    Bool × ReplicationManagerState :=
  if (mapLookup r.availableReplications replicationId).isSome then
    (true, { r with activeReplicationId := some replicationId })
  else (false, r)

/-- `ReplicationManager.getActiveReplication`. -/
def getActiveReplication (r : ReplicationManagerState) :
    Option ReplicationManifestData :=
  match r.activeReplicationId with
  | none => none
  | some id => mapLookup r.availableReplications id

/-- `EntityPathManager.loadEntityPathDataForActiveReplication`: clear all
entity path data, then load every batch listed by the active manifest and
rebuild the index once. -/
def loadEntityPathDataForActiveReplication (env : String → Option EntityPathBatch)
    (repl : ReplicationManagerState) (s : EntityPathManagerState) :
    Bool × EntityPathManagerState :=
  match getActiveReplication repl with
  | none => (false, s)
  | some activeReplication =>
    let s1 := clearEntityPathData s
    if activeReplication.entityPathDataFiles = [] then (true, s1)
    else
      let s2 := activeReplication.entityPathDataFiles.foldl
        (fun st f => loadEntityPathBatch env st f) s1
      (true, preprocessEntityPaths s2)

/-- `EntityPathManager.loadEntityPathsForTimeRange`: load every batch
whose declared entry window starts at or before `endTime` and that is not
already loaded. -/
def loadEntityPathsForTimeRange (env : String → Option EntityPathBatch)
    (repl : ReplicationManagerState) (s : EntityPathManagerState)
    (_startTime endTime : ℚ) : EntityPathManagerState :=
  match getActiveReplication repl with
  | none => s
  | some activeReplication =>
    (activeReplication.entityPathDataFiles.filter
        (fun batch => decide (batch.entryTimeStart ≤ endTime) &&
          !(mapLookup s.loadedEntityPathBatches batch.filePath).isSome)).foldl
      (fun st batch => loadEntityPathBatch env st batch) s

/-- The public operations that mutate an `EntityPathManager`; a state is
reachable when it is produced by a sequence of these from the initial
state. -/
inductive EPMOp where
  | loadBatch (fileInfo : EntityPathDataFileInfo)
  | preprocess
  | clear
  | loadForActive (repl : ReplicationManagerState)
  | loadForRange (repl : ReplicationManagerState) (startTime endTime : ℚ)
  deriving DecidableEq, Repr

/-- Execute one public operation. -/
def execEPMOp (env : String → Option EntityPathBatch)
    (s : EntityPathManagerState) : EPMOp → EntityPathManagerState
  | .loadBatch fileInfo => loadEntityPathBatch env s fileInfo
  | .preprocess => preprocessEntityPaths s
  | .clear => clearEntityPathData s
  | .loadForActive repl => (loadEntityPathDataForActiveReplication env repl s).2
  | .loadForRange repl a b => loadEntityPathsForTimeRange env repl s a b

/-- Run a sequence of public operations from the initial state. -/
def runEPMOps (env : String → Option EntityPathBatch) (ops : List EPMOp) :
    EntityPathManagerState :=
  ops.foldl (execEPMOp env) initialEPM

/-- A single time-series data point (source interface `TimeSeriesPoint`). -/
structure TimeSeriesPoint where
  time : ℚ
  value : ℚ
  deriving DecidableEq, Repr

/-- Precomputed statistical summary (source interface `StatisticsSummary`). -/
structure StatisticsSummary where
  min : ℚ
  max : ℚ
  mean : ℚ
  median : ℚ
  stdDev : ℚ
  count : ℚ
  deriving DecidableEq, Repr

/-- Statistics metadata (source interface `StatisticsMetadata`; the
interface marks `componentId` optional, the embedding fixes it as present
— no embedded operation depends on its absence). -/
structure StatisticsMetadata where
  type : String
  componentId : String
  metricName : String
  simulationId : String
  replication : ℤ
  timeStart : ℚ
  timeEnd : ℚ
  timeUnit : String
  deriving DecidableEq, Repr

/-- A complete statistics document (source interface `StatisticsData`). -/
structure StatisticsData where
  metadata : StatisticsMetadata
  summary : StatisticsSummary
  timeSeries : List TimeSeriesPoint
  deriving DecidableEq, Repr

/-- The mutable state of `StatisticsManager`. -/
structure StatisticsManagerState where
  statisticsData : List (String × StatisticsData)
  loadedStatisticsFiles : List (String × StatisticsData)
  deriving DecidableEq, Repr

/-- `StatisticsManager.getStatisticKey`: the composite key
`` `${type}:${componentId}:${metricName}` ``. -/
def getStatisticKey (type componentId metricName : String) : String :=
  type ++ ":" ++ componentId ++ ":" ++ metricName

/-- `StatisticsManager.clearStatisticsData`. -/
def clearStatisticsData (_s : StatisticsManagerState) : StatisticsManagerState :=
  ⟨[], []⟩

/-- `StatisticsManager.loadStatisticsFile`.  The source computes the key
from `statsData.type/componentId/metricName`, fields the `StatisticsData`
interface does not declare at top level; the embedding takes the series'
identifying triple from its metadata, which is the triple the manifest
declares for the file. -/
def loadStatisticsFile (env : String → Option StatisticsData)
    (s : StatisticsManagerState) (fileInfo : StatisticsDataFileInfo) :
    StatisticsManagerState :=
  if (mapLookup s.loadedStatisticsFiles fileInfo.filePath).isSome then s
  else
    match env fileInfo.filePath with
    | none => s
    | some statsData =>
      let key := getStatisticKey statsData.metadata.type
        statsData.metadata.componentId statsData.metadata.metricName
      { loadedStatisticsFiles :=
          mapSet s.loadedStatisticsFiles fileInfo.filePath statsData
        statisticsData := mapSet s.statisticsData key statsData }

/-- `StatisticsManager.loadStatisticsDataForActiveReplication`. -/
def loadStatisticsDataForActiveReplication (env : String → Option StatisticsData)
    (repl : ReplicationManagerState) (s : StatisticsManagerState) :
    Bool × StatisticsManagerState :=
  match getActiveReplication repl with
  | none => (false, s)
  | some activeReplication =>
    let s1 := clearStatisticsData s
    if activeReplication.statisticsDataFiles = [] then (true, s1)
    else
      (true, activeReplication.statisticsDataFiles.foldl
        (fun st f => loadStatisticsFile env st f) s1)

/-- `StatisticsManager.getStatistic`. -/
def getStatistic (s : StatisticsManagerState)
    (type componentId metricName : String) : Option StatisticsData :=
  mapLookup s.statisticsData (getStatisticKey type componentId metricName)

/-- The exact-match scan of `getStatisticValueAtTime`. -/
def findExactTS (timeSeries : List TimeSeriesPoint) (t : ℚ) :
    Option TimeSeriesPoint :=
  timeSeries.find? (fun p => decide (p.time = t))

/-- The closest-point scan of `getStatisticValueAtTime`: start from the
first point and replace the candidate only on a strictly smaller
distance. -/
def closestFrom (t : ℚ) (best : TimeSeriesPoint)
    (rest : List TimeSeriesPoint) : TimeSeriesPoint :=
  rest.foldl (fun b p => if |t - p.time| < |t - b.time| then p else b) best

/-- `StatisticsManager.getStatisticValueAtTime`. -/
def getStatisticValueAtTime (s : StatisticsManagerState)
    (type componentId metricName : String) (time : ℚ) (interpolate : Bool) :
    Option ℚ :=
  match getStatistic s type componentId metricName with
  | none => none
  | some statistic =>
    match statistic.timeSeries with
    | [] => none
    | firstPoint :: rest =>
      let lastPoint := lastD rest firstPoint
      if time < firstPoint.time then some firstPoint.value
      else if time > lastPoint.time then some lastPoint.value
      else
        match findExactTS (firstPoint :: rest) time with
        | some point => some point.value
        | none =>
          let closest := (closestFrom time firstPoint rest).value
          if interpolate then
            match scanBracket TimeSeriesPoint.time (firstPoint :: rest) time with
            | some (beforePoint, afterPoint) =>
              some (beforePoint.value +
                (time - beforePoint.time) / (afterPoint.time - beforePoint.time) *
                  (afterPoint.value - beforePoint.value))
            | none => some closest
          else some closest

/-- `StatisticsManager.getStatisticTimeSeriesForRange`. -/
def getStatisticTimeSeriesForRange (s : StatisticsManagerState)
    (type componentId metricName : String) (startTime endTime : ℚ) :
    List TimeSeriesPoint :=
  match getStatistic s type componentId metricName with
  | none => []
  | some statistic =>
    statistic.timeSeries.filter
      (fun point => decide (point.time ≥ startTime) && decide (point.time ≤ endTime))

/-- Result record of `StatisticsManager.getStatisticSummary`: the source
returns an object with exactly the fields `min`, `max`, `mean`. -/
structure SummaryResult where
  min : ℚ
  max : ℚ
  mean : ℚ
  deriving DecidableEq, Repr

/-- `StatisticsManager.getStatisticSummary`: recompute `Math.min`,
`Math.max` and the reduce-sum mean over the raw series values. -/
def getStatisticSummary (s : StatisticsManagerState)
    (type componentId metricName : String) : Option SummaryResult :=
  match getStatistic s type componentId metricName with
  | none => none
  | some statistic =>
    match statistic.timeSeries with
    | [] => none
    | q :: qs =>
      let values := (q :: qs).map TimeSeriesPoint.value
      some ⟨(qs.map TimeSeriesPoint.value).foldl min q.value,
            (qs.map TimeSeriesPoint.value).foldl max q.value,
            values.foldl (· + ·) 0 / (values.length : ℚ)⟩

/-- The mutable state of `CacheManager`, over an abstract parsed-document
type `V`; `reader` models `FileReader.readFileAsText` and `parse` models
`JSON.parse` (with its try/catch). -/
structure CacheManagerState (V : Type) where
  reader : String → Option String
  parse : String → Option V
  jsonCache : List (String × V)

/-- `CacheManager.fetchAndParseJSON`.  Returns the result, the new state
and the number of Storage-Reader reads performed (0 or 1).  A read that
yields a falsy content (`undefined` or the empty string) or fails to
parse caches nothing. -/
def fetchAndParseJSON {V : Type} (m : CacheManagerState V)
    (relativePath : String) : Option V × CacheManagerState V × ℕ :=
  match mapLookup m.jsonCache relativePath with
  | some v => (some v, m, 0)
  | none =>
    match m.reader relativePath with
    | some content =>
      if content = "" then (none, m, 1)
      else
        match m.parse content with
        | some parsed =>
          (some parsed,
           { m with jsonCache := mapSet m.jsonCache relativePath parsed }, 1)
        | none => (none, m, 1)
    | none => (none, m, 1)

/-- `CacheManager.clearCache`: clear one entry, or the whole cache. -/
def clearCache {V : Type} (m : CacheManagerState V) (path : Option String) :
    CacheManagerState V :=
  match path with
  | some p => { m with jsonCache := m.jsonCache.filter (fun kv => decide (kv.1 ≠ p)) }
  | none => { m with jsonCache := [] }

/-- `CacheManager.getCacheSize`. -/
def getCacheSize {V : Type} (m : CacheManagerState V) : ℕ :=
  m.jsonCache.length

/-- The public operations on a `CacheManager`. -/
inductive CacheOp where
  | fetch (path : String)
  | clearPath (path : String)
  | clearAll
  deriving DecidableEq, Repr

/-- Execute one public cache operation (state effect only). -/
def execCacheOp {V : Type} (m : CacheManagerState V) : CacheOp → CacheManagerState V
  | .fetch p => (fetchAndParseJSON m p).2.1
  | .clearPath p => clearCache m (some p)
  | .clearAll => clearCache m none

/-- `StrictAscBy f l`: the measures `f` of the elements of `l` are
strictly increasing — the "strictly ascending by clock/time" data
invariant of paths and time series. -/
def StrictAscBy {α : Type} (f : α → ℚ) (l : List α) : Prop :=
  l.Pairwise (fun p q => f p < f q)

instance {α : Type} (f : α → ℚ) (l : List α) : Decidable (StrictAscBy f l) :=
  inferInstanceAs (Decidable (l.Pairwise _))

/-- The composite `AnimationData` facade state. -/
structure AnimationDataState where
  repl : ReplicationManagerState
  entity : EntityPathManagerState
  stats : StatisticsManagerState

/-- `AnimationData.setActiveReplication`: activate the catalog entry,
then (only on success) load entity-path and statistics data for it. -/
def setActiveReplication (envE : String → Option EntityPathBatch)
    (envS : String → Option StatisticsData) (s : AnimationDataState)
    (replicationId : ℤ) : Bool × AnimationDataState :=
  let activated := setActiveReplicationId s.repl replicationId
  if activated.1 then
    let entity1 := (loadEntityPathDataForActiveReplication envE activated.2 s.entity).2
    let stats1 := (loadStatisticsDataForActiveReplication envS activated.2 s.stats).2
    (true, ⟨activated.2, entity1, stats1⟩)
  else (false, ⟨activated.2, s.entity, s.stats⟩)

/-! ### Concrete instances used to exercise the theorems -/

/-- The two-point path entity of the end-to-end scenario:
`[(clock 0, x 0, y 0, "idle"), (clock 10, x 10, y 0, "moving")]`. -/
def demoEntityPath : EntityPath :=
  ⟨"E1", "Customer", [⟨0, 0, 0, none, "idle"⟩, ⟨10, 10, 0, none, "moving"⟩]⟩

/-- A manager state with the demo entity loaded. -/
def demoEPMState : EntityPathManagerState :=
  ⟨[], [("E1", demoEntityPath)], []⟩

/-- The statistics series of the end-to-end scenario: points
`[(0,2),(10,8)]`, with a deliberately different attached summary record
so that recomputation is observable. -/
def demoStat : StatisticsData :=
  ⟨⟨"activity_metric", "act1", "queueLength", "sim", 1, 0, 10, "minutes"⟩,
   ⟨999, 999, 999, 999, 999, 2⟩,
   [⟨0, 2⟩, ⟨10, 8⟩]⟩

/-- A statistics manager state with the demo series loaded under its key. -/
def demoStatsState : StatisticsManagerState :=
  ⟨[(getStatisticKey "activity_metric" "act1" "queueLength", demoStat)], []⟩

/-- A cache manager over `ℕ` documents whose reader always yields the
text `"42"` and whose parser accepts exactly that text. -/
def demoCache : CacheManagerState ℕ :=
  ⟨fun _ => some "42", fun content => if content = "42" then some 42 else none, []⟩

/-- A one-entry replication manifest with no data files. -/
def demoManifest : ReplicationManifestData :=
  ⟨⟨"1", "sim", 1, none, 100, "minutes", "ml.json", "vc.json", "bg.svg"⟩, [], []⟩

/-- A facade state whose catalog holds only replication 1. -/
def demoADState : AnimationDataState :=
  ⟨⟨[(1, demoManifest)], none⟩, initialEPM, ⟨[], []⟩⟩

/-- The implicit safety invariant of the timeline index: every entity id
stored in any bucket maps, in the entity-by-id map, to an entity whose
path is non-empty — exactly what makes the unguarded accesses `path[0]`
and `path[path.length - 1]` in `getEntityIdsAtTime` in bounds. -/
def TimelineIndexSafe (s : EntityPathManagerState) : Prop :=
  ∀ b ids, mapLookup s.timelineIndex b = some ids →
    ∀ id ∈ ids, ∃ ep, mapLookup s.entityPathsById id = some ep ∧ ep.path ≠ []

/-- An environment delivers only good batches when every entity of every
readable batch has a non-empty path. -/
def GoodBatches (env : String → Option EntityPathBatch) : Prop :=
  ∀ p b, env p = some b → ∀ e ∈ b.entities, e.path ≠ []

/-- The strengthened induction invariant behind `TimelineIndexSafe`:
entity-map entries are keyed by their own id and have non-empty paths,
and every indexed id is a key of the entity map. -/
def EPMInv (s : EntityPathManagerState) : Prop :=
  (∀ kv ∈ s.entityPathsById, kv.2.entityId = kv.1) ∧
  (∀ kv ∈ s.entityPathsById, kv.2.path ≠ []) ∧
  (∀ b ids, mapLookup s.timelineIndex b = some ids →
    ∀ id ∈ ids, (mapLookup s.entityPathsById id).isSome)

/-- Environment of the C10 counterexample: file `f1` registers entity
`X` with one point, file `f2` re-registers `X` with an empty path. -/
def cexEnv : String → Option EntityPathBatch := fun p =>
  if p = "f1" then some ⟨[⟨"X", "T", 0, [⟨1, 2, 0, "", "s", 0⟩]⟩]⟩
  else if p = "f2" then some ⟨[⟨"X", "T", 0, []⟩]⟩
  else none

/-- Operation sequence of the C10 counterexample: load both batch files. -/
def cexOps : List EPMOp :=
  [EPMOp.loadBatch ⟨"f1", 0, 0, none⟩, EPMOp.loadBatch ⟨"f2", 0, 0, none⟩]

/-- A one-entity batch used to exercise activation. -/
def c8Batch : EntityPathBatch :=
  ⟨[⟨"E1", "Customer", 0, [⟨0, 0, 0, "", "idle", 0⟩]⟩]⟩

/-- Environment serving only the batch file `b1`. -/
def c8Env : String → Option EntityPathBatch :=
  fun p => if p = "b1" then some c8Batch else none

/-- A manifest listing the single batch file `b1`. -/
def c8Manifest : ReplicationManifestData :=
  ⟨⟨"1", "sim", 1, none, 100, "minutes", "ml.json", "vc.json", "bg.svg"⟩,
   [⟨"b1", 0, 100, none⟩], []⟩

/-- A replication catalog with `c8Manifest` active. -/
def c8Repl : ReplicationManagerState := ⟨[(1, c8Manifest)], some 1⟩

/-! ### Basic lemmas about the `Map`/`Set` models -/

theorem mapLookup_mapSet {α β : Type} [DecidableEq α] (m : List (α × β))
    (k a : α) (v : β) :
    mapLookup (mapSet m k v) a = if a = k then some v else mapLookup m a := by
  induction m with
  | nil => simp [mapSet, mapLookup]
  | cons kv rest ih =>
    obtain ⟨k', v'⟩ := kv
    by_cases hk : k = k'
    · subst hk
      simp only [mapSet, if_pos rfl, mapLookup]
      by_cases ha : a = k <;> simp [ha]
    · simp only [mapSet, if_neg hk, mapLookup, ih]
      by_cases ha : a = k'
      · subst ha
        have hne : ¬ a = k := fun h => hk h.symm
        simp [hne]
      · simp [ha]

theorem mem_mapSet {α β : Type} [DecidableEq α] {m : List (α × β)}
    {k : α} {v : β} {kv : α × β} (h : kv ∈ mapSet m k v) :
    kv = (k, v) ∨ kv ∈ m := by
  induction m with
  | nil => simpa [mapSet] using h
  | cons kv' rest ih =>
    obtain ⟨k', v'⟩ := kv'
    by_cases hk : k = k'
    · subst hk
      simp only [mapSet, if_pos rfl] at h
      rcases List.mem_cons.mp h with h | h
      · exact Or.inl h
      · exact Or.inr (List.mem_cons_of_mem _ h)
    · simp only [mapSet, if_neg hk] at h
      rcases List.mem_cons.mp h with h | h
      · exact Or.inr (List.mem_cons.mpr (Or.inl h))
      · rcases ih h with h | h
        · exact Or.inl h
        · exact Or.inr (List.mem_cons_of_mem _ h)

theorem mapLookup_mem {α β : Type} [DecidableEq α] {m : List (α × β)}
    {a : α} {v : β} (h : mapLookup m a = some v) : (a, v) ∈ m := by
  induction m with
  | nil => simp [mapLookup] at h
  | cons kv rest ih =>
    obtain ⟨k', v'⟩ := kv
    by_cases ha : a = k'
    · subst ha
      simp only [mapLookup, if_pos rfl] at h
      have hv : v' = v := Option.some.inj h
      rw [← hv]
      exact List.mem_cons_self _ _
    · simp only [mapLookup, if_neg ha] at h
      exact List.mem_cons_of_mem _ (ih h)

theorem mapLookup_isSome_of_mem {α β : Type} [DecidableEq α] {m : List (α × β)}
    {a : α} {v : β} (h : (a, v) ∈ m) : (mapLookup m a).isSome := by
  induction m with
  | nil => simp at h
  | cons kv rest ih =>
    obtain ⟨k', v'⟩ := kv
    simp only [mapLookup]
    by_cases ha : a = k'
    · simp [ha]
    · simp only [if_neg ha]
      rcases List.mem_cons.mp h with hh | hh
      · exact absurd (congrArg Prod.fst hh) ha
      · exact ih hh

theorem mapLookup_eq_of_mem_nodup {α β : Type} [DecidableEq α]
    {m : List (α × β)} (hnd : (m.map Prod.fst).Nodup) {a : α} {v : β}
    (h : (a, v) ∈ m) : mapLookup m a = some v := by
  induction m with
  | nil => simp at h
  | cons kv rest ih =>
    obtain ⟨k', v'⟩ := kv
    simp only [List.map_cons, List.nodup_cons] at hnd
    rcases List.mem_cons.mp h with hm | hm
    · cases hm
      simp [mapLookup]
    · have hne : a ≠ k' := fun hak =>
        hnd.1 (List.mem_map.mpr ⟨(a, v), hm, hak⟩)
      simp only [mapLookup, if_neg hne]
      exact ih hnd.2 hm

theorem mem_setAdd {α : Type} [DecidableEq α] (s : List α) (x a : α) :
    a ∈ setAdd s x ↔ a = x ∨ a ∈ s := by
  unfold setAdd
  by_cases hx : x ∈ s
  · simp only [if_pos hx]
    constructor
    · exact Or.inr
    · rintro (rfl | h)
      · exact hx
      · exact h
  · simp only [if_neg hx, List.mem_append, List.mem_singleton]
    tauto

theorem lastD_cons {α : Type} (x : α) (xs : List α) (d : α) :
    lastD (x :: xs) d = lastD xs x := rfl

theorem lastD_cons_mem {α : Type} (a : α) (l : List α) : lastD l a ∈ a :: l := by
  induction l generalizing a with
  | nil => simp [lastD]
  | cons x xs ih =>
    rw [lastD_cons]
    exact List.mem_cons_of_mem _ (ih x)

/-! ### Sortedness machinery -/

theorem StrictAscBy.tail {α : Type} {f : α → ℚ} {a : α} {l : List α}
    (h : StrictAscBy f (a :: l)) : StrictAscBy f l :=
  (List.pairwise_cons.mp h).2

theorem StrictAscBy.head_lt {α : Type} {f : α → ℚ} {a : α} {l : List α}
    (h : StrictAscBy f (a :: l)) : ∀ p ∈ l, f a < f p :=
  (List.pairwise_cons.mp h).1

theorem StrictAscBy.head_le {α : Type} {f : α → ℚ} {a : α} {l : List α}
    (h : StrictAscBy f (a :: l)) : ∀ p ∈ a :: l, f a ≤ f p := by
  intro p hp
  rcases List.mem_cons.mp hp with rfl | hp
  · exact le_refl _
  · exact le_of_lt (h.head_lt p hp)

theorem StrictAscBy.le_lastD {α : Type} {f : α → ℚ} {a : α} {l : List α}
    (h : StrictAscBy f (a :: l)) : ∀ p ∈ a :: l, f p ≤ f (lastD l a) := by
  induction l generalizing a with
  | nil =>
    intro p hp
    rcases List.mem_cons.mp hp with rfl | hp
    · simp [lastD]
    · simp at hp
  | cons y ys ih =>
    intro p hp
    rw [lastD_cons]
    rcases List.mem_cons.mp hp with rfl | hp
    · calc f p ≤ f y := le_of_lt (h.head_lt y (List.mem_cons_self _ _))
      _ ≤ f (lastD ys y) := ih h.tail y (List.mem_cons_self _ _)
    · exact ih h.tail p hp

theorem find?_eq_some_of_strictAsc {α : Type} {f : α → ℚ} {l : List α}
    (h : StrictAscBy f l) {p : α} (hp : p ∈ l) {t : ℚ} (ht : f p = t) :
    l.find? (fun q => decide (f q = t)) = some p := by
  induction l with
  | nil => simp at hp
  | cons a xs ih =>
    by_cases ha : f a = t
    · have hpa : p = a := by
        rcases List.mem_cons.mp hp with rfl | hp
        · rfl
        · have hlt := h.head_lt p hp
          rw [ha, ht] at hlt
          exact absurd hlt (lt_irrefl t)
      subst hpa
      exact List.find?_cons_of_pos _ (by simp [ha])
    · have hpa : p ≠ a := fun hh => ha (hh ▸ ht)
      have hp' : p ∈ xs := (List.mem_cons.mp hp).resolve_left hpa
      rw [List.find?_cons_of_neg _ (by simp [ha])]
      exact ih h.tail hp'

theorem scanBracket_eq_some {α : Type} (f : α → ℚ) (t : ℚ) :
    ∀ (rest : List α) (a : α), StrictAscBy f (a :: rest) → f a ≤ t →
      t ≤ f (lastD rest a) → (∀ p ∈ a :: rest, f p ≠ t) →
      ∃ b c l1 l2, a :: rest = l1 ++ b :: c :: l2 ∧
        scanBracket f (a :: rest) t = some (b, c) ∧ f b < t ∧ t < f c := by
  intro rest
  induction rest with
  | nil =>
    intro a _ hle hge hne
    exact absurd (le_antisymm hle hge) (hne a (List.mem_cons_self _ _))
  | cons y ys ih =>
    intro a hsort hle hge hne
    by_cases hy : f y ≥ t
    · refine ⟨a, y, [], ys, rfl, ?_, ?_, ?_⟩
      · simp [scanBracket, hle, hy]
      · exact lt_of_le_of_ne hle fun hh => hne a (List.mem_cons_self _ _) hh
      · exact lt_of_le_of_ne hy fun hh => hne y (by simp) hh.symm
    · push_neg at hy
      obtain ⟨b, c, l1, l2, hsplit, hscan, hb, hc⟩ :=
        ih y hsort.tail (le_of_lt hy) hge
          (fun p hp => hne p (List.mem_cons_of_mem _ hp))
      refine ⟨b, c, a :: l1, l2, by rw [List.cons_append, hsplit], ?_, hb, hc⟩
      have : ¬ (f a ≤ t ∧ f y ≥ t) := fun hh => absurd hh.2 (not_le.mpr hy)
      simp only [scanBracket, if_neg this]
      exact hscan

theorem closestFrom_spec (t : ℚ) :
    ∀ (rest : List TimeSeriesPoint) (best : TimeSeriesPoint),
      ∃ c l1 l2, best :: rest = l1 ++ c :: l2 ∧ closestFrom t best rest = c ∧
        (∀ p ∈ l1, |t - c.time| < |t - p.time|) ∧
        (∀ p ∈ l2, |t - c.time| ≤ |t - p.time|) := by
  intro rest
  induction rest with
  | nil =>
    intro best
    exact ⟨best, [], [], rfl, rfl, by simp, by simp⟩
  | cons y ys ih =>
    intro best
    by_cases hy : |t - y.time| < |t - best.time|
    · obtain ⟨c, l1, l2, hsplit, hfold, hl1, hl2⟩ := ih y
      have hcy : |t - c.time| ≤ |t - y.time| := by
        have hmem : y ∈ l1 ++ c :: l2 := hsplit ▸ List.mem_cons_self _ _
        rcases List.mem_append.mp hmem with h | h
        · exact le_of_lt (hl1 y h)
        · rcases List.mem_cons.mp h with rfl | h
          · exact le_refl _
          · exact hl2 y h
      refine ⟨c, best :: l1, l2, by rw [List.cons_append, hsplit], ?_, ?_, hl2⟩
      · simp only [closestFrom, List.foldl_cons, if_pos hy]
        exact hfold
      · intro p hp
        rcases List.mem_cons.mp hp with rfl | hp
        · exact lt_of_le_of_lt hcy hy
        · exact hl1 p hp
    · obtain ⟨c, l1, l2, hsplit, hfold, hl1, hl2⟩ := ih best
      push_neg at hy
      cases l1 with
      | nil =>
        obtain ⟨hb, hys⟩ : best = c ∧ ys = l2 := by simpa using hsplit
        subst hb
        subst hys
        refine ⟨best, [], y :: ys, rfl, ?_, by simp, ?_⟩
        · simp only [closestFrom, List.foldl_cons, if_neg (not_lt.mpr hy)]
          exact hfold
        · intro p hp
          rcases List.mem_cons.mp hp with rfl | hp
          · exact hy
          · exact hl2 p hp
      | cons z l1' =>
        obtain ⟨hz, hsplit2⟩ : best = z ∧ ys = l1' ++ c :: l2 := by
          simpa using hsplit
        subst hz
        have hbc : |t - c.time| < |t - best.time| :=
          hl1 best (List.mem_cons_self _ _)
        refine ⟨c, best :: y :: l1', l2, by simp [hsplit2], ?_, ?_, hl2⟩
        · simp only [closestFrom, List.foldl_cons, if_neg (not_lt.mpr hy)]
          exact hfold
        · intro p hp
          rcases List.mem_cons.mp hp with rfl | hp
          · exact hbc
          · rcases List.mem_cons.mp hp with rfl | hp
            · exact lt_of_lt_of_le hbc hy
            · exact hl1 p (List.mem_cons_of_mem _ hp)

theorem foldl_min_spec (l : List ℚ) (a : ℚ) :
    (l.foldl min a = a ∨ l.foldl min a ∈ l) ∧ l.foldl min a ≤ a ∧
      ∀ v ∈ l, l.foldl min a ≤ v := by
  induction l generalizing a with
  | nil => simp
  | cons x xs ih =>
    obtain ⟨hmem, hle, hall⟩ := ih (min a x)
    refine ⟨?_, ?_, ?_⟩
    · rcases hmem with h | h
      · rcases min_choice a x with hc | hc
        · exact Or.inl (by rw [List.foldl_cons, h, hc])
        · exact Or.inr (by rw [List.foldl_cons, h, hc]; simp)
      · exact Or.inr (List.mem_cons_of_mem _ (by simpa using h))
    · exact le_trans (by simpa using hle) (min_le_left a x)
    · intro v hv
      rcases List.mem_cons.mp hv with rfl | hv
      · exact le_trans (by simpa using hle) (min_le_right a v)
      · exact hall v hv

theorem foldl_max_spec (l : List ℚ) (a : ℚ) :
    (l.foldl max a = a ∨ l.foldl max a ∈ l) ∧ a ≤ l.foldl max a ∧
      ∀ v ∈ l, v ≤ l.foldl max a := by
  induction l generalizing a with
  | nil => simp
  | cons x xs ih =>
    obtain ⟨hmem, hle, hall⟩ := ih (max a x)
    refine ⟨?_, ?_, ?_⟩
    · rcases hmem with h | h
      · rcases max_choice a x with hc | hc
        · exact Or.inl (by rw [List.foldl_cons, h, hc])
        · exact Or.inr (by rw [List.foldl_cons, h, hc]; simp)
      · exact Or.inr (List.mem_cons_of_mem _ (by simpa using h))
    · exact le_trans (le_max_left a x) (by simpa using hle)
    · intro v hv
      rcases List.mem_cons.mp hv with rfl | hv
      · exact le_trans (le_max_right a v) (by simpa using hle)
      · exact hall v hv

/-! ### C1: point-in-time entity state query -/

/-- **C1.** For every loaded entity with a non-empty, strictly ascending
path, `getEntityStateAtTime(id, t)` returns `undefined` when `t` is
outside `[first.clock, last.clock]`; returns the point's `(state, x, y)`
verbatim when `t` equals some path point's clock; and otherwise returns
`x` and `y` linearly interpolated between the two bracketing points with
the `state` taken from the earlier bracketing point. -/
theorem getEntityStateAtTime_spec (s : EntityPathManagerState)
    (entityId : String) (ep : EntityPath) (firstPoint : PathPoint)
    (rest : List PathPoint) (t : ℚ)
    (hlook : mapLookup s.entityPathsById entityId = some ep)
    (hpath : ep.path = firstPoint :: rest)
    (hsort : StrictAscBy PathPoint.clock ep.path) :
    ((t < firstPoint.clock ∨ t > (lastD rest firstPoint).clock) →
      getEntityStateAtTime s entityId t = none)
    ∧ (∀ p ∈ ep.path, p.clock = t →
      getEntityStateAtTime s entityId t = some ⟨p.state, p.x, p.y⟩)
    ∧ ((firstPoint.clock ≤ t ∧ t ≤ (lastD rest firstPoint).clock ∧
        (∀ p ∈ ep.path, p.clock ≠ t)) →
      ∃ b c l1 l2, ep.path = l1 ++ b :: c :: l2 ∧ b.clock < t ∧ t < c.clock ∧
        getEntityStateAtTime s entityId t =
          some ⟨b.state,
                b.x + (t - b.clock) / (c.clock - b.clock) * (c.x - b.x),
                b.y + (t - b.clock) / (c.clock - b.clock) * (c.y - b.y)⟩) := by
  rw [hpath] at hsort
  refine ⟨?_, ?_, ?_⟩
  · intro hout
    simp only [getEntityStateAtTime, hlook, hpath, if_pos hout]
  · intro p hp hpt
    rw [hpath] at hp
    have hin : ¬ (t < firstPoint.clock ∨ t > (lastD rest firstPoint).clock) := by
      push_neg
      constructor
      · rw [← hpt]
        exact hsort.head_le p hp
      · rw [← hpt]
        exact hsort.le_lastD p hp
    have hfind : findExactPoint (firstPoint :: rest) t = some p :=
      find?_eq_some_of_strictAsc hsort hp hpt
    simp only [getEntityStateAtTime, hlook, hpath, if_neg hin, hfind]
  · rintro ⟨h1, h2, hne⟩
    rw [hpath] at hne
    have hin : ¬ (t < firstPoint.clock ∨ t > (lastD rest firstPoint).clock) := by
      push_neg
      exact ⟨h1, h2⟩
    have hfind : findExactPoint (firstPoint :: rest) t = none := by
      unfold findExactPoint
      apply List.find?_eq_none.mpr
      intro p hp
      simp [hne p hp]
    obtain ⟨b, c, l1, l2, hsplit, hscan, hb, hc⟩ :=
      scanBracket_eq_some PathPoint.clock t rest firstPoint hsort h1 h2 hne
    refine ⟨b, c, l1, l2, by rw [hpath, hsplit], hb, hc, ?_⟩
    simp only [getEntityStateAtTime, hlook, hpath, if_neg hin, hfind, hscan]

/-- Witness for C1 on the end-to-end scenario: the query at `t = 5`
lies strictly between the two demo points and evaluates to
`{state "idle", x 5, y 0}`. -/
theorem getEntityStateAtTime_spec_witness :
    (∃ b c l1 l2,
      demoEntityPath.path = l1 ++ b :: c :: l2 ∧ b.clock < 5 ∧ (5 : ℚ) < c.clock ∧
      getEntityStateAtTime demoEPMState "E1" 5 =
        some ⟨b.state,
              b.x + ((5 : ℚ) - b.clock) / (c.clock - b.clock) * (c.x - b.x),
              b.y + ((5 : ℚ) - b.clock) / (c.clock - b.clock) * (c.y - b.y)⟩)
    ∧ getEntityStateAtTime demoEPMState "E1" 5 = some ⟨"idle", 5, 0⟩ :=
  ⟨(getEntityStateAtTime_spec demoEPMState "E1" demoEntityPath
      ⟨0, 0, 0, none, "idle"⟩ [⟨10, 10, 0, none, "moving"⟩] 5 rfl rfl
      (by decide)).2.2 ⟨by decide, by decide, by decide⟩,
    by norm_num [getEntityStateAtTime, demoEPMState, demoEntityPath, mapLookup,
      findExactPoint, List.find?, scanBracket, lastD]⟩

/-! ### C3: statistics summary -/

/-- **C3 (counterexample).** `getStatisticSummary` does not return the
precomputed summary record attached to the series: on the demo series
(points `[(0,2),(10,8)]`, attached summary min 999) it returns a
recomputed min of 2 while the attached record says 999. -/
theorem getStatisticSummary_not_precomputed :
    (getStatisticSummary demoStatsState "activity_metric" "act1"
        "queueLength").map SummaryResult.min = some 2
    ∧ (getStatistic demoStatsState "activity_metric" "act1"
        "queueLength").map (fun st => st.summary.min) = some 999
    ∧ (2 : ℚ) ≠ 999 := by
  refine ⟨?_, by decide, by decide⟩
  norm_num [getStatisticSummary, demoStatsState, demoStat, getStatistic,
    mapLookup]

/-- **C3 (amended).** For every loaded statistics series with a non-empty
time series, `getStatisticSummary` returns a record holding exactly the
minimum, maximum and arithmetic mean recomputed from the raw point
values (no `median`/`stdDev`/`count` fields); the attached precomputed
summary is never consulted — the result depends only on the raw time
series. -/
theorem getStatisticSummary_recomputed (s : StatisticsManagerState)
    (type componentId metricName : String) (stat : StatisticsData)
    (q : TimeSeriesPoint) (qs : List TimeSeriesPoint)
    (hstat : getStatistic s type componentId metricName = some stat)
    (hts : stat.timeSeries = q :: qs) :
    ∃ r, getStatisticSummary s type componentId metricName = some r ∧
      r.min ∈ (q :: qs).map TimeSeriesPoint.value ∧
      (∀ v ∈ (q :: qs).map TimeSeriesPoint.value, r.min ≤ v) ∧
      r.max ∈ (q :: qs).map TimeSeriesPoint.value ∧
      (∀ v ∈ (q :: qs).map TimeSeriesPoint.value, v ≤ r.max) ∧
      r.mean = ((q :: qs).map TimeSeriesPoint.value).foldl (· + ·) 0 /
        (((q :: qs).map TimeSeriesPoint.value).length : ℚ) ∧
      ∀ (s2 : StatisticsManagerState) (stat2 : StatisticsData),
        getStatistic s2 type componentId metricName = some stat2 →
        stat2.timeSeries = stat.timeSeries →
        getStatisticSummary s2 type componentId metricName = some r := by
  obtain ⟨hminmem, hminle, hminall⟩ :=
    foldl_min_spec (qs.map TimeSeriesPoint.value) q.value
  obtain ⟨hmaxmem, hmaxle, hmaxall⟩ :=
    foldl_max_spec (qs.map TimeSeriesPoint.value) q.value
  refine ⟨⟨(qs.map TimeSeriesPoint.value).foldl min q.value,
           (qs.map TimeSeriesPoint.value).foldl max q.value,
           ((q :: qs).map TimeSeriesPoint.value).foldl (· + ·) 0 /
             (((q :: qs).map TimeSeriesPoint.value).length : ℚ)⟩,
    ?_, ?_, ?_, ?_, ?_, rfl, ?_⟩
  · simp only [getStatisticSummary, hstat, hts]
  · rw [List.map_cons]
    show (qs.map TimeSeriesPoint.value).foldl min q.value ∈
      q.value :: qs.map TimeSeriesPoint.value
    rcases hminmem with h | h
    · rw [h]
      exact List.mem_cons_self _ _
    · exact List.mem_cons_of_mem _ h
  · intro v hv
    rw [List.map_cons] at hv
    rcases List.mem_cons.mp hv with rfl | hv
    · exact hminle
    · exact hminall v hv
  · rw [List.map_cons]
    show (qs.map TimeSeriesPoint.value).foldl max q.value ∈
      q.value :: qs.map TimeSeriesPoint.value
    rcases hmaxmem with h | h
    · rw [h]
      exact List.mem_cons_self _ _
    · exact List.mem_cons_of_mem _ h
  · intro v hv
    rw [List.map_cons] at hv
    rcases List.mem_cons.mp hv with rfl | hv
    · exact hmaxle
    · exact hmaxall v hv
  · intro s2 stat2 hstat2 hts2
    simp only [getStatisticSummary, hstat2, hts2, hts]

/-- Witness for the amended C3 on the demo series: the recomputed record
is `{min 2, max 8, mean 5}`, ignoring the attached summary. -/
theorem getStatisticSummary_recomputed_witness :
    ∃ r, getStatisticSummary demoStatsState "activity_metric" "act1"
        "queueLength" = some r ∧
      r.min ∈ ([⟨0, 2⟩, ⟨10, 8⟩] : List TimeSeriesPoint).map TimeSeriesPoint.value ∧
      (∀ v ∈ ([⟨0, 2⟩, ⟨10, 8⟩] : List TimeSeriesPoint).map TimeSeriesPoint.value,
        r.min ≤ v) := by
  obtain ⟨r, h1, h2, h3, -⟩ :=
    getStatisticSummary_recomputed demoStatsState "activity_metric" "act1"
      "queueLength" demoStat ⟨0, 2⟩ [⟨10, 8⟩] (by decide) rfl
  exact ⟨r, h1, h2, h3⟩

/-! ### C4: clamp behavior of the statistics time query -/

/-- **C4.** For every loaded statistics series with a non-empty,
(strictly) ascending time series, `getStatisticValueAtTime` at any `t`
at or before the first point's time returns exactly the first point's
value, and at any `t` at or after the last point's time returns exactly
the last point's value, regardless of the `interpolate` flag. -/
theorem getStatisticValueAtTime_clamp (s : StatisticsManagerState)
    (type componentId metricName : String) (stat : StatisticsData)
    (firstPoint : TimeSeriesPoint) (rest : List TimeSeriesPoint)
    (t : ℚ) (interpolate : Bool)
    (hstat : getStatistic s type componentId metricName = some stat)
    (hts : stat.timeSeries = firstPoint :: rest)
    (hsort : StrictAscBy TimeSeriesPoint.time stat.timeSeries) :
    (t ≤ firstPoint.time →
      getStatisticValueAtTime s type componentId metricName t interpolate =
        some firstPoint.value)
    ∧ ((lastD rest firstPoint).time ≤ t →
      getStatisticValueAtTime s type componentId metricName t interpolate =
        some (lastD rest firstPoint).value) := by
  rw [hts] at hsort
  have hfl : firstPoint.time ≤ (lastD rest firstPoint).time :=
    hsort.le_lastD firstPoint (List.mem_cons_self _ _)
  constructor
  · intro hle
    rcases lt_or_eq_of_le hle with hlt | heq
    · simp only [getStatisticValueAtTime, hstat, hts, if_pos hlt]
    · have hnlt : ¬ t < firstPoint.time := by
        rw [heq]
        exact lt_irrefl _
      have hngt : ¬ t > (lastD rest firstPoint).time := by
        rw [heq]
        exact not_lt.mpr hfl
      have hfind : findExactTS (firstPoint :: rest) t = some firstPoint := by
        unfold findExactTS
        exact List.find?_cons_of_pos _ (by simp [heq])
      simp only [getStatisticValueAtTime, hstat, hts, if_neg hnlt, if_neg hngt,
        hfind]
  · intro hge
    rcases lt_or_eq_of_le hge with hlt | heq
    · have hnlt : ¬ t < firstPoint.time :=
        not_lt.mpr (le_of_lt (lt_of_le_of_lt hfl hlt))
      simp only [getStatisticValueAtTime, hstat, hts, if_neg hnlt, if_pos hlt]
    · have hnlt : ¬ t < firstPoint.time := by
        rw [← heq]
        exact not_lt.mpr hfl
      have hngt : ¬ t > (lastD rest firstPoint).time := by
        rw [← heq]
        exact lt_irrefl _
      have hfind : findExactTS (firstPoint :: rest) t =
          some (lastD rest firstPoint) :=
        find?_eq_some_of_strictAsc hsort (lastD_cons_mem firstPoint rest) heq
      simp only [getStatisticValueAtTime, hstat, hts, if_neg hnlt, if_neg hngt,
        hfind]

/-- Witness for C4 on the demo series `[(0,2),(10,8)]`: the query at
`t = -3` returns 2 and at `t = 12` returns 8, for both interpolation
flags at once. -/
theorem getStatisticValueAtTime_clamp_witness :
    getStatisticValueAtTime demoStatsState "activity_metric" "act1"
        "queueLength" (-3) true = some 2
    ∧ getStatisticValueAtTime demoStatsState "activity_metric" "act1"
        "queueLength" 12 false = some 8 :=
  ⟨(getStatisticValueAtTime_clamp demoStatsState "activity_metric" "act1"
      "queueLength" demoStat ⟨0, 2⟩ [⟨10, 8⟩] (-3) true (by decide) rfl
      (by decide)).1 (by decide),
   (getStatisticValueAtTime_clamp demoStatsState "activity_metric" "act1"
      "queueLength" demoStat ⟨0, 2⟩ [⟨10, 8⟩] 12 false (by decide) rfl
      (by decide)).2 (by decide)⟩

/-! ### C5: nearest-point rule with interpolation off -/

/-- **C5.** For every loaded statistics series and every `t` strictly
inside the series' time range matching no point exactly,
`getStatisticValueAtTime` with `interpolate = false` returns the value of
the point whose time is nearest to `t`, ties broken in favor of the
point occurring first when scanning from index 0: the returned value is
that of a point strictly closer than everything before it and at least
as close as everything after it. -/
theorem getStatisticValueAtTime_nearest (s : StatisticsManagerState)
    (type componentId metricName : String) (stat : StatisticsData)
    (firstPoint : TimeSeriesPoint) (rest : List TimeSeriesPoint) (t : ℚ)
    (hstat : getStatistic s type componentId metricName = some stat)
    (hts : stat.timeSeries = firstPoint :: rest)
    (hlo : firstPoint.time < t) (hhi : t < (lastD rest firstPoint).time)
    (hne : ∀ p ∈ stat.timeSeries, p.time ≠ t) :
    ∃ c l1 l2, stat.timeSeries = l1 ++ c :: l2 ∧
      (∀ p ∈ l1, |t - c.time| < |t - p.time|) ∧
      (∀ p ∈ l2, |t - c.time| ≤ |t - p.time|) ∧
      getStatisticValueAtTime s type componentId metricName t false =
        some c.value := by
  rw [hts] at hne
  obtain ⟨c, l1, l2, hsplit, hfold, hl1, hl2⟩ := closestFrom_spec t rest firstPoint
  have hnlt : ¬ t < firstPoint.time := not_lt.mpr (le_of_lt hlo)
  have hngt : ¬ t > (lastD rest firstPoint).time := not_lt.mpr (le_of_lt hhi)
  have hfind : findExactTS (firstPoint :: rest) t = none := by
    unfold findExactTS
    apply List.find?_eq_none.mpr
    intro p hp
    simp [hne p hp]
  refine ⟨c, l1, l2, by rw [hts]; exact hsplit, hl1, hl2, ?_⟩
  simp only [getStatisticValueAtTime, hstat, hts, if_neg hnlt, if_neg hngt,
    hfind, Bool.false_eq_true, if_false]
  rw [hfold]

/-- Witness for C5 on the demo series at the exact-tie time `t = 5`:
both points are at distance 5 and the first one (value 2) wins. -/
theorem getStatisticValueAtTime_nearest_witness :
    (∃ c l1 l2,
      demoStat.timeSeries = l1 ++ c :: l2 ∧
      (∀ p ∈ l1, |(5 : ℚ) - c.time| < |(5 : ℚ) - p.time|) ∧
      (∀ p ∈ l2, |(5 : ℚ) - c.time| ≤ |(5 : ℚ) - p.time|) ∧
      getStatisticValueAtTime demoStatsState "activity_metric" "act1"
        "queueLength" 5 false = some c.value)
    ∧ getStatisticValueAtTime demoStatsState "activity_metric" "act1"
        "queueLength" 5 false = some 2 := by
  refine ⟨getStatisticValueAtTime_nearest demoStatsState "activity_metric"
    "act1" "queueLength" demoStat ⟨0, 2⟩ [⟨10, 8⟩] 5 (by decide) rfl
    (by decide) (by decide) (by decide), ?_⟩
  norm_num [getStatisticValueAtTime, demoStatsState, demoStat, getStatistic,
    mapLookup, findExactTS, List.find?, closestFrom, lastD]

/-! ### C9: injectivity of the composite statistic key -/

theorem append_cons_colon_inj :
    ∀ (a b u v : List Char), ':' ∉ a → ':' ∉ b →
      a ++ ':' :: u = b ++ ':' :: v → a = b ∧ u = v := by
  intro a
  induction a with
  | nil =>
    intro b u v _ hb h
    cases b with
    | nil => simpa using h
    | cons y ys =>
      simp only [List.nil_append, List.cons_append, List.cons.injEq] at h
      have hmem : (':' : Char) ∈ y :: ys := by
        rw [h.1]
        exact List.mem_cons_self _ _
      exact absurd hmem hb
  | cons x xs ih =>
    intro b u v ha hb h
    cases b with
    | nil =>
      simp only [List.cons_append, List.nil_append, List.cons.injEq] at h
      have hmem : (':' : Char) ∈ x :: xs := by
        rw [← h.1]
        exact List.mem_cons_self _ _
      exact absurd hmem ha
    | cons y ys =>
      simp only [List.cons_append, List.cons.injEq] at h
      obtain ⟨rfl, htail⟩ := h
      have ha' : (':' : Char) ∉ xs := fun hh => ha (List.mem_cons_of_mem _ hh)
      have hb' : (':' : Char) ∉ ys := fun hh => hb (List.mem_cons_of_mem _ hh)
      obtain ⟨hxy, huv⟩ := ih ys u v ha' hb' htail
      exact ⟨by rw [hxy], huv⟩

/-- **C9 (counterexample).** The composite key `type:componentId:metricName`
is not injective: the distinct triples `("a:b","c","m")` and
`("a","b:c","m")` render to the same key string. -/
theorem getStatisticKey_not_injective :
    getStatisticKey "a:b" "c" "m" = getStatisticKey "a" "b:c" "m"
    ∧ (("a:b", "c", "m") : String × String × String) ≠ ("a", "b:c", "m") := by
  constructor
  · rfl
  · decide

/-- **C9 (amended).** The composite key is injective on triples whose
`type` and `componentId` contain no colon: two such triples that differ
in at least one component render to different key strings. -/
theorem getStatisticKey_injective_of_colon_free
    (t1 c1 m1 t2 c2 m2 : String)
    (h1 : ':' ∉ t1.data) (h2 : ':' ∉ c1.data)
    (h3 : ':' ∉ t2.data) (h4 : ':' ∉ c2.data)
    (heq : getStatisticKey t1 c1 m1 = getStatisticKey t2 c2 m2) :
    t1 = t2 ∧ c1 = c2 ∧ m1 = m2 := by
  have hdata := congrArg String.data heq
  simp only [getStatisticKey, String.data_append, List.append_assoc,
    List.singleton_append] at hdata
  obtain ⟨hA, hBC⟩ := append_cons_colon_inj t1.data t2.data _ _ h1 h3 hdata
  obtain ⟨hB, hC⟩ := append_cons_colon_inj c1.data c2.data _ _ h2 h4 hBC
  exact ⟨String.ext hA, String.ext hB, String.ext hC⟩

/-- Witness for the amended C9 at colon-free components. -/
theorem getStatisticKey_injective_of_colon_free_witness :
    ("activity_metric" : String) = "activity_metric"
    ∧ ("act1" : String) = "act1" ∧ ("queueLength" : String) = "queueLength" :=
  getStatisticKey_injective_of_colon_free
    "activity_metric" "act1" "queueLength"
    "activity_metric" "act1" "queueLength"
    (by decide) (by decide) (by decide) (by decide) rfl

/-! ### C6: at-most-one read and parse per path -/

theorem mapLookup_filter_ne {α β : Type} [DecidableEq α]
    (m : List (α × β)) (q a : α) (h : a ≠ q) :
    mapLookup (m.filter (fun kv => decide (kv.1 ≠ q))) a = mapLookup m a := by
  induction m with
  | nil => rfl
  | cons kv rest ih =>
    obtain ⟨k, v⟩ := kv
    by_cases hk : k = q
    · subst hk
      rw [List.filter_cons_of_neg (by simp), ih]
      simp only [mapLookup, if_neg h]
    · rw [List.filter_cons_of_pos (by simp [hk])]
      simp only [mapLookup, ih]

/-- A cache hit returns the cached value, leaves the state unchanged, and
performs no read. -/
theorem fetchAndParseJSON_cached {V : Type} (m : CacheManagerState V)
    (p : String) (v : V) (h : mapLookup m.jsonCache p = some v) :
    fetchAndParseJSON m p = (some v, m, 0) := by
  simp only [fetchAndParseJSON, h]

/-- A successful fetch leaves the parsed value in the cache. -/
theorem fetchAndParseJSON_success_lookup {V : Type} (m : CacheManagerState V)
    (p : String) (v : V) (h : (fetchAndParseJSON m p).1 = some v) :
    mapLookup (fetchAndParseJSON m p).2.1.jsonCache p = some v := by
  cases hc : mapLookup m.jsonCache p with
  | some w =>
    simp only [fetchAndParseJSON, hc] at h ⊢
    exact h
  | none =>
    cases hr : m.reader p with
    | none => simp [fetchAndParseJSON, hc, hr] at h
    | some content =>
      by_cases hemp : content = ""
      · simp [fetchAndParseJSON, hc, hr, hemp] at h
      · cases hparse : m.parse content with
        | none => simp [fetchAndParseJSON, hc, hr, if_neg hemp, hparse] at h
        | some parsed =>
          simp only [fetchAndParseJSON, hc, hr, if_neg hemp, hparse] at h ⊢
          rw [mapLookup_mapSet]
          simp [h]

/-- Any operation other than a clear of `p` preserves `p`'s cached value. -/
theorem execCacheOp_preserves {V : Type} (m : CacheManagerState V)
    (p : String) (v : V) (op : CacheOp)
    (hop : op ≠ CacheOp.clearPath p ∧ op ≠ CacheOp.clearAll)
    (h : mapLookup m.jsonCache p = some v) :
    mapLookup (execCacheOp m op).jsonCache p = some v := by
  cases op with
  | fetch q =>
    simp only [execCacheOp]
    cases hc : mapLookup m.jsonCache q with
    | some w => simpa [fetchAndParseJSON, hc] using h
    | none =>
      cases hr : m.reader q with
      | none => simpa [fetchAndParseJSON, hc, hr] using h
      | some content =>
        by_cases hemp : content = ""
        · simpa [fetchAndParseJSON, hc, hr, hemp] using h
        · cases hparse : m.parse content with
          | none => simpa [fetchAndParseJSON, hc, hr, if_neg hemp, hparse] using h
          | some parsed =>
            simp only [fetchAndParseJSON, hc, hr, if_neg hemp, hparse]
            rw [mapLookup_mapSet]
            by_cases hpq : p = q
            · subst hpq
              rw [h] at hc
              cases hc
            · rw [if_neg hpq]
              exact h
  | clearPath q =>
    have hq : p ≠ q := fun hh => hop.1 (by rw [hh])
    simp only [execCacheOp, clearCache]
    rw [mapLookup_filter_ne _ _ _ hq]
    exact h
  | clearAll => exact absurd rfl hop.2

/-- A cached value survives any sequence of operations that never clears
its path. -/
theorem cacheTrace_preserves {V : Type} (p : String) (v : V) :
    ∀ (ops : List CacheOp) (m0 : CacheManagerState V),
      (∀ op ∈ ops, op ≠ CacheOp.clearPath p ∧ op ≠ CacheOp.clearAll) →
      mapLookup m0.jsonCache p = some v →
      mapLookup (ops.foldl execCacheOp m0).jsonCache p = some v := by
  intro ops
  induction ops with
  | nil => exact fun m0 _ h => h
  | cons op rest ih =>
    intro m0 hops h
    simp only [List.foldl_cons]
    exact ih _ (fun o ho => hops o (List.mem_cons_of_mem _ ho))
      (execCacheOp_preserves m0 p v op (hops op (List.mem_cons_self _ _)) h)

/-- **C6.** Once `fetchAndParseJSON(p)` has succeeded, every subsequent
`fetchAndParseJSON(p)` — across any further fetches and clears of other
paths, until a clear of `p` or of the whole cache — returns the same
previously parsed value, leaves the state unchanged, and performs no
further Storage-Reader read. -/
theorem fetchAndParseJSON_at_most_one_read {V : Type}
    (m : CacheManagerState V) (p : String) (v : V)
    (hsucc : (fetchAndParseJSON m p).1 = some v) (ops : List CacheOp)
    (hops : ∀ op ∈ ops, op ≠ CacheOp.clearPath p ∧ op ≠ CacheOp.clearAll) :
    fetchAndParseJSON (ops.foldl execCacheOp (fetchAndParseJSON m p).2.1) p =
      (some v, ops.foldl execCacheOp (fetchAndParseJSON m p).2.1, 0) :=
  fetchAndParseJSON_cached _ p v
    (cacheTrace_preserves p v ops _ hops
      (fetchAndParseJSON_success_lookup m p v hsucc))

/-- Witness for C6: a fetch of `"data.json"` on the demo cache, followed
by a fetch of another path, still answers from the cache with zero
reads. -/
theorem fetchAndParseJSON_at_most_one_read_witness :
    fetchAndParseJSON
        (([CacheOp.fetch "other"]).foldl execCacheOp
          (fetchAndParseJSON demoCache "data.json").2.1) "data.json" =
      (some 42,
       ([CacheOp.fetch "other"]).foldl execCacheOp
         (fetchAndParseJSON demoCache "data.json").2.1, 0) :=
  fetchAndParseJSON_at_most_one_read demoCache "data.json" 42 rfl
    [CacheOp.fetch "other"] (by decide)

/-! ### C7: activation of an unknown replication id -/

/-- **C7.** For every replication id not registered in the catalog,
`setActiveReplication(id)` returns `false` (it does not throw) and leaves
the whole facade state — in particular the previously active id and the
entity-path and statistics managers — unchanged: no load is triggered.
For every registered id it records that id as active and returns
`true`. -/
theorem setActiveReplication_spec (envE : String → Option EntityPathBatch)
    (envS : String → Option StatisticsData) (s : AnimationDataState)
    (replicationId : ℤ) :
    (mapLookup s.repl.availableReplications replicationId = none →
      setActiveReplication envE envS s replicationId = (false, s))
    ∧ (∀ manifest,
      mapLookup s.repl.availableReplications replicationId = some manifest →
      (setActiveReplication envE envS s replicationId).1 = true ∧
      (setActiveReplication envE envS s
        replicationId).2.repl.activeReplicationId = some replicationId) := by
  constructor
  · intro hnone
    simp only [setActiveReplication, setActiveReplicationId, hnone,
      Option.isSome_none, Bool.false_eq_true, if_false]
  · intro manifest hsome
    constructor
    · simp only [setActiveReplication, setActiveReplicationId, hsome,
        Option.isSome_some, if_true]
    · simp only [setActiveReplication, setActiveReplicationId, hsome,
        Option.isSome_some, if_true]

/-- Witness for C7: activating the unknown id 5 on the demo facade state
is a no-op returning `false`; activating the registered id 1 succeeds
and records it. -/
theorem setActiveReplication_spec_witness :
    setActiveReplication (fun _ => none) (fun _ => none) demoADState 5 =
      (false, demoADState)
    ∧ (setActiveReplication (fun _ => none) (fun _ => none) demoADState 1).1 =
      true
    ∧ (setActiveReplication (fun _ => none) (fun _ => none) demoADState
        1).2.repl.activeReplicationId = some 1 :=
  ⟨(setActiveReplication_spec (fun _ => none) (fun _ => none) demoADState 5).1
      rfl,
   ((setActiveReplication_spec (fun _ => none) (fun _ => none) demoADState 1).2
      demoManifest rfl).1,
   ((setActiveReplication_spec (fun _ => none) (fun _ => none) demoADState 1).2
      demoManifest rfl).2⟩

/-! ### Timeline-index membership machinery -/

theorem mem_bucketRange (s e b : ℤ) : b ∈ bucketRange s e ↔ s ≤ b ∧ b ≤ e := by
  unfold bucketRange
  simp only [List.mem_map, List.mem_range]
  constructor
  · rintro ⟨n, hn, rfl⟩
    omega
  · rintro ⟨h1, h2⟩
    exact ⟨(b - s).toNat, by omega, by omega⟩

theorem bucketOf_mono {a b : ℚ} (h : a ≤ b) : bucketOf a ≤ bucketOf b :=
  Int.floor_le_floor ((div_le_div_iff_of_pos_right (by norm_num)).mpr h)

theorem isSome_iff_mem_keys {α β : Type} [DecidableEq α]
    (m : List (α × β)) (a : α) :
    (mapLookup m a).isSome ↔ a ∈ m.map Prod.fst := by
  constructor
  · intro h
    obtain ⟨v, hv⟩ := Option.isSome_iff_exists.mp h
    exact List.mem_map.mpr ⟨(a, v), mapLookup_mem hv, rfl⟩
  · intro h
    obtain ⟨⟨k, v⟩, hm, hk⟩ := List.mem_map.mp h
    exact mapLookup_isSome_of_mem ((show k = a from hk) ▸ hm)

theorem mem_indexAdd (idx : List (ℤ × List String)) (b b' : ℤ)
    (id id' : String) :
    id' ∈ (mapLookup (indexAdd idx b id) b').getD [] ↔
      (b' = b ∧ id' = id) ∨ id' ∈ (mapLookup idx b').getD [] := by
  unfold indexAdd
  rw [mapLookup_mapSet]
  by_cases hb : b' = b
  · subst hb
    rw [if_pos rfl]
    simp [mem_setAdd]
  · simp [hb]

theorem mem_foldl_indexAdd (id : String) (bs : List ℤ) :
    ∀ (idx : List (ℤ × List String)) (b' : ℤ) (id' : String),
      id' ∈ (mapLookup (bs.foldl (fun i b => indexAdd i b id) idx) b').getD [] ↔
        (b' ∈ bs ∧ id' = id) ∨ id' ∈ (mapLookup idx b').getD [] := by
  induction bs with
  | nil => simp
  | cons b bs ih =>
    intro idx b' id'
    simp only [List.foldl_cons]
    rw [ih, mem_indexAdd]
    simp only [List.mem_cons]
    tauto

theorem mem_indexEntity (idx : List (ℤ × List String)) (ep : EntityPath)
    (b' : ℤ) (id' : String) :
    id' ∈ (mapLookup (indexEntity idx ep) b').getD [] ↔
      (id' = ep.entityId ∧ coversBucket ep b')
      ∨ id' ∈ (mapLookup idx b').getD [] := by
  unfold indexEntity coversBucket
  cases hp : ep.path with
  | nil => simp
  | cons firstPoint rest =>
    rw [mem_foldl_indexAdd, mem_bucketRange]
    tauto

theorem mem_updateTimelineIndex (paths : List EntityPath) :
    ∀ (idx : List (ℤ × List String)) (b' : ℤ) (id' : String),
      id' ∈ (mapLookup (updateTimelineIndex idx paths) b').getD [] ↔
        (∃ ep ∈ paths, id' = ep.entityId ∧ coversBucket ep b')
        ∨ id' ∈ (mapLookup idx b').getD [] := by
  induction paths with
  | nil => simp [updateTimelineIndex]
  | cons ep paths ih =>
    intro idx b' id'
    unfold updateTimelineIndex at ih ⊢
    simp only [List.foldl_cons]
    rw [ih, mem_indexEntity]
    constructor
    · rintro (⟨e, he, h⟩ | (h | h))
      · exact Or.inl ⟨e, List.mem_cons_of_mem _ he, h⟩
      · exact Or.inl ⟨ep, List.mem_cons_self _ _, h⟩
      · exact Or.inr h
    · rintro (⟨e, he, h⟩ | h)
      · rcases List.mem_cons.mp he with rfl | he
        · exact Or.inr (Or.inl h)
        · exact Or.inl ⟨e, he, h⟩
      · exact Or.inr (Or.inr h)

theorem mem_foldl_setAdd (ids : List String) :
    ∀ (acc : List String) (a : String),
      a ∈ ids.foldl setAdd acc ↔ a ∈ acc ∨ a ∈ ids := by
  induction ids with
  | nil => simp
  | cons x xs ih =>
    intro acc a
    simp only [List.foldl_cons]
    rw [ih, mem_setAdd]
    simp only [List.mem_cons]
    tauto

theorem mem_collectBucketIds (s : EntityPathManagerState) (sb eb : ℤ)
    (a : String) :
    a ∈ collectBucketIds s sb eb ↔
      ∃ b, sb ≤ b ∧ b ≤ eb ∧ a ∈ (mapLookup s.timelineIndex b).getD [] := by
  have key : ∀ (bs : List ℤ) (acc : List String),
      a ∈ bs.foldl (collectStep s) acc ↔
        a ∈ acc ∨ ∃ b ∈ bs, a ∈ (mapLookup s.timelineIndex b).getD [] := by
    intro bs
    induction bs with
    | nil => simp
    | cons b bs ih =>
      intro acc
      simp only [List.foldl_cons]
      rw [ih]
      cases hb : mapLookup s.timelineIndex b with
      | none =>
        simp only [collectStep, hb]
        constructor
        · rintro (h | ⟨b2, hb2, hmem⟩)
          · exact Or.inl h
          · exact Or.inr ⟨b2, List.mem_cons_of_mem _ hb2, hmem⟩
        · rintro (h | ⟨b2, hb2, hmem⟩)
          · exact Or.inl h
          · rcases List.mem_cons.mp hb2 with rfl | hb2
            · rw [hb] at hmem
              simp at hmem
            · exact Or.inr ⟨b2, hb2, hmem⟩
      | some ids =>
        simp only [collectStep, hb]
        rw [mem_foldl_setAdd]
        constructor
        · rintro ((h | h) | ⟨b2, hb2, hmem⟩)
          · exact Or.inl h
          · exact Or.inr ⟨b, List.mem_cons_self _ _, by simp [hb, h]⟩
          · exact Or.inr ⟨b2, List.mem_cons_of_mem _ hb2, hmem⟩
        · rintro (h | ⟨b2, hb2, hmem⟩)
          · exact Or.inl (Or.inl h)
          · rcases List.mem_cons.mp hb2 with rfl | hb2
            · rw [hb] at hmem
              exact Or.inl (Or.inr (by simpa using hmem))
            · exact Or.inr ⟨b2, hb2, hmem⟩
  unfold collectBucketIds
  rw [key]
  simp only [List.not_mem_nil, false_or]
  constructor
  · rintro ⟨b, hb, hmem⟩
    obtain ⟨h1, h2⟩ := (mem_bucketRange sb eb b).mp hb
    exact ⟨b, h1, h2, hmem⟩
  · rintro ⟨b, h1, h2, hmem⟩
    exact ⟨b, (mem_bucketRange sb eb b).mpr ⟨h1, h2⟩, hmem⟩

theorem isSome_rangeFilterStep (s : EntityPathManagerState)
    (startTime endTime : ℚ) (acc : List (String × EntityPath))
    (x id : String) :
    (mapLookup (rangeFilterStep s startTime endTime acc x) id).isSome ↔
      (id = x ∧ RangePass s startTime endTime x) ∨
      (mapLookup acc id).isSome := by
  cases hlx : mapLookup s.entityPathsById x with
  | none =>
    have hstep : rangeFilterStep s startTime endTime acc x = acc := by
      simp only [rangeFilterStep, hlx]
    rw [hstep]
    constructor
    · exact Or.inr
    · rintro (⟨rfl, hpass⟩ | h)
      · obtain ⟨ep, f, r, hlook, -⟩ := hpass
        exact Option.noConfusion (hlx.symm.trans hlook)
      · exact h
  | some ep =>
    cases hpath : ep.path with
    | nil =>
      have hstep : rangeFilterStep s startTime endTime acc x = acc := by
        simp only [rangeFilterStep, hlx, hpath]
      rw [hstep]
      constructor
      · exact Or.inr
      · rintro (⟨rfl, hpass⟩ | h)
        · obtain ⟨ep2, f, r, hlook, hp2, -⟩ := hpass
          have hee : ep = ep2 := Option.some.inj (hlx.symm.trans hlook)
          rw [← hee, hpath] at hp2
          cases hp2
        · exact h
    | cons f r =>
      by_cases hcond : f.clock ≤ endTime ∧ (lastD r f).clock ≥ startTime
      · have hstep : rangeFilterStep s startTime endTime acc x =
            mapSet acc x ep := by
          simp only [rangeFilterStep, hlx, hpath]
          rw [if_pos hcond]
        rw [hstep, mapLookup_mapSet]
        by_cases hix : id = x
        · subst hix
          rw [if_pos rfl]
          constructor
          · intro _
            exact Or.inl ⟨rfl, ep, f, r, hlx, hpath, hcond.1, hcond.2⟩
          · intro _
            rfl
        · rw [if_neg hix]
          constructor
          · exact Or.inr
          · rintro (⟨rfl, -⟩ | h)
            · exact absurd rfl hix
            · exact h
      · have hstep : rangeFilterStep s startTime endTime acc x = acc := by
          simp only [rangeFilterStep, hlx, hpath]
          rw [if_neg hcond]
        rw [hstep]
        constructor
        · exact Or.inr
        · rintro (⟨rfl, hpass⟩ | h)
          · obtain ⟨ep2, f2, r2, hlook, hp2, hc1, hc2⟩ := hpass
            have hee : ep = ep2 := Option.some.inj (hlx.symm.trans hlook)
            rw [← hee, hpath] at hp2
            injection hp2 with hf hr
            subst hf
            subst hr
            exact absurd ⟨hc1, hc2⟩ hcond
          · exact h

theorem isSome_rangeFold (s : EntityPathManagerState)
    (startTime endTime : ℚ) (l : List String) :
    ∀ (acc : List (String × EntityPath)) (id : String),
      (mapLookup (l.foldl (rangeFilterStep s startTime endTime) acc)
        id).isSome ↔
        (mapLookup acc id).isSome ∨
        (id ∈ l ∧ RangePass s startTime endTime id) := by
  induction l with
  | nil => simp
  | cons x xs ih =>
    intro acc id
    simp only [List.foldl_cons]
    rw [ih, isSome_rangeFilterStep]
    simp only [List.mem_cons]
    constructor
    · rintro ((⟨rfl, hp⟩ | h) | ⟨hmem, hp⟩)
      · exact Or.inr ⟨Or.inl rfl, hp⟩
      · exact Or.inl h
      · exact Or.inr ⟨Or.inr hmem, hp⟩
    · rintro (h | ⟨rfl | hmem, hp⟩)
      · exact Or.inl (Or.inr h)
      · exact Or.inl (Or.inl ⟨rfl, hp⟩)
      · exact Or.inr ⟨hmem, hp⟩

theorem mem_keys_getEntitiesInTimeRange (s : EntityPathManagerState)
    (startTime endTime : ℚ) (id : String) :
    id ∈ (getEntitiesInTimeRange s startTime endTime).map Prod.fst ↔
      id ∈ collectBucketIds s (bucketOf startTime) (bucketOf endTime) ∧
        RangePass s startTime endTime id := by
  rw [← isSome_iff_mem_keys]
  unfold getEntitiesInTimeRange
  rw [isSome_rangeFold]
  simp [mapLookup]

/-! ### C2: the bucketed range query equals the naive reference -/

/-- **C2.** For every set of loaded entities with non-empty strictly
ascending paths (keys unique, ids consistent) and every
`startTime ≤ endTime`, after the timeline index is built from those
entities, the key set of the bucket-index-based `getEntitiesInTimeRange`
equals the key set of the naive reference that scans every loaded
entity and keeps those with `first.clock <= end && last.clock >= start`
— in particular the bucketed index never produces a false negative. -/
theorem getEntitiesInTimeRange_eq_naive
    (lb : List (String × EntityPathBatch))
    (entities : List (String × EntityPath)) (startTime endTime : ℚ)
    (hnd : (entities.map Prod.fst).Nodup)
    (hid : ∀ kv ∈ entities, kv.2.entityId = kv.1)
    (hne : ∀ kv ∈ entities, kv.2.path ≠ [])
    (hsorted : ∀ kv ∈ entities, StrictAscBy PathPoint.clock kv.2.path)
    (hse : startTime ≤ endTime) :
    ∀ id,
      id ∈ (getEntitiesInTimeRange
        ⟨lb, entities, updateTimelineIndex [] (entities.map Prod.snd)⟩
        startTime endTime).map Prod.fst ↔
      id ∈ (naiveEntitiesInTimeRange entities startTime endTime).map
        Prod.fst := by
  intro id
  rw [mem_keys_getEntitiesInTimeRange]
  have hnaive : id ∈ (naiveEntitiesInTimeRange entities startTime
      endTime).map Prod.fst ↔
      ∃ ep firstPoint rest, (id, ep) ∈ entities ∧
        ep.path = firstPoint :: rest ∧ firstPoint.clock ≤ endTime ∧
        (lastD rest firstPoint).clock ≥ startTime := by
    rw [← isSome_iff_mem_keys]
    constructor
    · intro h
      obtain ⟨ep, hep⟩ := Option.isSome_iff_exists.mp h
      have hmem := mapLookup_mem hep
      rw [naiveEntitiesInTimeRange, List.mem_filter] at hmem
      obtain ⟨hmem, hpred⟩ := hmem
      cases hp : ep.path with
      | nil =>
        rw [hp] at hpred
        simp at hpred
      | cons f r =>
        rw [hp] at hpred
        simp only [Bool.and_eq_true, decide_eq_true_eq] at hpred
        exact ⟨ep, f, r, hmem, hp, hpred.1, hpred.2⟩
    · rintro ⟨ep, f, r, hmem, hp, h1, h2⟩
      apply mapLookup_isSome_of_mem (v := ep)
      rw [naiveEntitiesInTimeRange, List.mem_filter]
      refine ⟨hmem, ?_⟩
      rw [hp]
      simp [h1, h2]
  rw [hnaive]
  constructor
  · rintro ⟨-, ep, f, r, hlook, hp, h1, h2⟩
    exact ⟨ep, f, r, mapLookup_mem hlook, hp, h1, h2⟩
  · rintro ⟨ep, f, r, hmem, hp, h1, h2⟩
    have hlook : mapLookup entities id = some ep :=
      mapLookup_eq_of_mem_nodup hnd hmem
    refine ⟨?_, ep, f, r, hlook, hp, h1, h2⟩
    rw [mem_collectBucketIds]
    have hsort : StrictAscBy PathPoint.clock (f :: r) := by
      have := hsorted (id, ep) hmem
      rwa [hp] at this
    have hfl : f.clock ≤ (lastD r f).clock :=
      hsort.le_lastD f (List.mem_cons_self _ _)
    refine ⟨bucketOf (max f.clock startTime), ?_, ?_, ?_⟩
    · exact bucketOf_mono (le_max_right _ _)
    · exact bucketOf_mono (max_le h1 hse)
    · rw [mem_updateTimelineIndex]
      refine Or.inl ⟨ep, List.mem_map.mpr ⟨(id, ep), hmem, rfl⟩, ?_, ?_⟩
      · exact (hid (id, ep) hmem).symm
      · unfold coversBucket
        rw [hp]
        exact ⟨bucketOf_mono (le_max_left _ _),
               bucketOf_mono (max_le hfl h2)⟩

/-- Witness for C2 on the demo entity (lifetime `[0,10]`): the query
window `[5,15]` finds `E1` both ways. -/
theorem getEntitiesInTimeRange_eq_naive_witness :
    "E1" ∈ (getEntitiesInTimeRange
        ⟨[], [("E1", demoEntityPath)],
          updateTimelineIndex [] ([("E1", demoEntityPath)].map Prod.snd)⟩
        5 15).map Prod.fst ↔
    "E1" ∈ (naiveEntitiesInTimeRange [("E1", demoEntityPath)] 5 15).map
      Prod.fst :=
  getEntitiesInTimeRange_eq_naive [] [("E1", demoEntityPath)] 5 15
    (by decide) (by decide) (by decide) (by decide) (by decide) "E1"

/-! ### C8: activation replaces all prior entity state -/

theorem isSome_entitiesFold (entities : List BatchEntity) :
    ∀ (m0 : List (String × EntityPath)) (id : String),
      (mapLookup (entities.foldl
        (fun m e => mapSet m e.id (toEntityPath e)) m0) id).isSome →
      (mapLookup m0 id).isSome ∨ ∃ e ∈ entities, e.id = id := by
  induction entities with
  | nil => exact fun m0 id h => Or.inl h
  | cons e es ih =>
    intro m0 id h
    simp only [List.foldl_cons] at h
    rcases ih _ id h with h | ⟨e2, he2, rfl⟩
    · rw [mapLookup_mapSet] at h
      by_cases hie : id = e.id
      · exact Or.inr ⟨e, List.mem_cons_self _ _, hie.symm⟩
      · rw [if_neg hie] at h
        exact Or.inl h
    · exact Or.inr ⟨e2, List.mem_cons_of_mem _ he2, rfl⟩

theorem isSome_loadEntityPathBatch (env : String → Option EntityPathBatch)
    (s : EntityPathManagerState) (fileInfo : EntityPathDataFileInfo)
    (id : String)
    (h : (mapLookup (loadEntityPathBatch env s fileInfo).entityPathsById
      id).isSome) :
    (mapLookup s.entityPathsById id).isSome ∨
    ∃ batch, env fileInfo.filePath = some batch ∧
      ∃ e ∈ batch.entities, e.id = id := by
  unfold loadEntityPathBatch at h
  by_cases hloaded : (mapLookup s.loadedEntityPathBatches
      fileInfo.filePath).isSome
  · rw [if_pos hloaded] at h
    exact Or.inl h
  · rw [if_neg hloaded] at h
    cases henv : env fileInfo.filePath with
    | none =>
      rw [henv] at h
      exact Or.inl h
    | some batch =>
      rw [henv] at h
      rcases isSome_entitiesFold batch.entities s.entityPathsById id h with
        h | ⟨e, he, rfl⟩
      · exact Or.inl h
      · exact Or.inr ⟨batch, rfl, e, he, rfl⟩

theorem isSome_loadFold (env : String → Option EntityPathBatch)
    (files : List EntityPathDataFileInfo) :
    ∀ (s : EntityPathManagerState) (id : String),
      (mapLookup ((files.foldl (fun st f => loadEntityPathBatch env st f)
        s).entityPathsById) id).isSome →
      (mapLookup s.entityPathsById id).isSome ∨
      ∃ fi ∈ files, ∃ batch, env fi.filePath = some batch ∧
        ∃ e ∈ batch.entities, e.id = id := by
  induction files with
  | nil => exact fun s id h => Or.inl h
  | cons f fs ih =>
    intro s id h
    simp only [List.foldl_cons] at h
    rcases ih _ id h with h | ⟨fi, hfi, hrest⟩
    · rcases isSome_loadEntityPathBatch env s f id h with h | ⟨batch, hb, he⟩
      · exact Or.inl h
      · exact Or.inr ⟨f, List.mem_cons_self _ _, batch, hb, he⟩
    · exact Or.inr ⟨fi, List.mem_cons_of_mem _ hfi, hrest⟩

/-- **C8.** Activation replaces all prior per-replication state: whatever
the prior manager state, after `loadEntityPathDataForActiveReplication`
with manifest `B` active, every loaded entity id comes from one of `B`'s
batch files — so no id exclusive to a previously active replication
survives. -/
theorem loadForActiveReplication_ids_from_batches
    (env : String → Option EntityPathBatch) (repl : ReplicationManagerState)
    (s : EntityPathManagerState) (manifest : ReplicationManifestData)
    (hactive : getActiveReplication repl = some manifest) :
    ∀ id ∈ getLoadedEntityIds
        (loadEntityPathDataForActiveReplication env repl s).2,
      ∃ fi ∈ manifest.entityPathDataFiles, ∃ batch,
        env fi.filePath = some batch ∧ ∃ e ∈ batch.entities, e.id = id := by
  intro id hid
  rw [getLoadedEntityIds, ← isSome_iff_mem_keys] at hid
  unfold loadEntityPathDataForActiveReplication at hid
  rw [hactive] at hid
  dsimp only at hid
  by_cases hfiles : manifest.entityPathDataFiles = []
  · rw [if_pos hfiles] at hid
    simp [clearEntityPathData, mapLookup] at hid
  · rw [if_neg hfiles] at hid
    have hid2 : (mapLookup ((manifest.entityPathDataFiles.foldl
        (fun st f => loadEntityPathBatch env st f)
        (clearEntityPathData s)).entityPathsById) id).isSome := hid
    rcases isSome_loadFold env manifest.entityPathDataFiles
        (clearEntityPathData s) id hid2 with h | h
    · simp [clearEntityPathData, mapLookup] at h
    · exact h

/-- Witness for C8: after activating the one-batch manifest, the only
loaded id `E1` indeed comes from batch file `b1`. -/
theorem loadForActiveReplication_ids_from_batches_witness :
    ∃ fi ∈ c8Manifest.entityPathDataFiles, ∃ batch,
      c8Env fi.filePath = some batch ∧ ∃ e ∈ batch.entities, e.id = "E1" :=
  loadForActiveReplication_ids_from_batches c8Env c8Repl initialEPM
    c8Manifest rfl "E1" (by decide)

/-! ### C10: the timeline-index safety invariant -/

/-- **C10 (counterexample).** The invariant fails on a reachable state:
after loading batch file `f1` (entity `X` with one point) and then batch
file `f2` (entity `X` with an empty path), `X` is still indexed in
bucket 0 while the entity map holds `X` with an empty path — exactly the
state in which `getEntityIdsAtTime`'s unguarded `path[0]` access is out
of bounds. -/
theorem timelineIndexSafe_not_invariant :
    ¬ TimelineIndexSafe (runEPMOps cexEnv cexOps) := by
  have hstate : runEPMOps cexEnv cexOps =
      ⟨[("f1", ⟨[⟨"X", "T", 0, [⟨1, 2, 0, "", "s", 0⟩]⟩]⟩),
        ("f2", ⟨[⟨"X", "T", 0, []⟩]⟩)],
       [("X", ⟨"X", "T", []⟩)],
       [(0, ["X"])]⟩ := by
    norm_num +decide [runEPMOps, execEPMOp, loadEntityPathBatch, cexEnv,
      cexOps, mapLookup, mapSet, toEntityPath, toPathPoint,
      updateTimelineIndex, indexEntity, indexAdd, setAdd, bucketRange,
      bucketOf, lastD, initialEPM, List.range, List.range.loop]
  rw [hstate]
  intro h
  obtain ⟨ep, hep, hnemp⟩ := h 0 ["X"] rfl "X" (List.mem_cons_self _ _)
  have hcomp : mapLookup ([("X", (⟨"X", "T", []⟩ : EntityPath))]) "X" =
      some ⟨"X", "T", []⟩ := rfl
  have hepv : ep = ⟨"X", "T", []⟩ := Option.some.inj (hep.symm.trans hcomp)
  exact hnemp (by rw [hepv])

theorem mem_entitiesFold (entities : List BatchEntity) :
    ∀ (m0 : List (String × EntityPath)) (kv : String × EntityPath),
      kv ∈ entities.foldl (fun m e => mapSet m e.id (toEntityPath e)) m0 →
      kv ∈ m0 ∨ ∃ e ∈ entities, kv = (e.id, toEntityPath e) := by
  induction entities with
  | nil => exact fun m0 kv h => Or.inl h
  | cons e es ih =>
    intro m0 kv h
    simp only [List.foldl_cons] at h
    rcases ih _ kv h with h | ⟨e2, he2, rfl⟩
    · rcases mem_mapSet h with h | h
      · exact Or.inr ⟨e, List.mem_cons_self _ _, h⟩
      · exact Or.inl h
    · exact Or.inr ⟨e2, List.mem_cons_of_mem _ he2, rfl⟩

theorem isSome_entitiesFold_mono (entities : List BatchEntity) :
    ∀ (m0 : List (String × EntityPath)) (id : String),
      (mapLookup m0 id).isSome →
      (mapLookup (entities.foldl
        (fun m e => mapSet m e.id (toEntityPath e)) m0) id).isSome := by
  induction entities with
  | nil => exact fun m0 id h => h
  | cons e es ih =>
    intro m0 id h
    simp only [List.foldl_cons]
    apply ih
    rw [mapLookup_mapSet]
    by_cases hie : id = e.id
    · rw [if_pos hie]
      rfl
    · rw [if_neg hie]
      exact h

theorem epminv_preprocess {s : EntityPathManagerState} (h : EPMInv s) :
    EPMInv (preprocessEntityPaths s) := by
  obtain ⟨h1, h2, _⟩ := h
  refine ⟨h1, h2, ?_⟩
  intro b ids hlook id hid
  have hmem : id ∈ (mapLookup (preprocessEntityPaths s).timelineIndex b).getD [] := by
    rw [show (preprocessEntityPaths s).timelineIndex =
      updateTimelineIndex [] (s.entityPathsById.map Prod.snd) from rfl] at hlook ⊢
    rw [hlook]
    exact hid
  rw [show (preprocessEntityPaths s).timelineIndex =
    updateTimelineIndex [] (s.entityPathsById.map Prod.snd) from rfl,
    mem_updateTimelineIndex] at hmem
  rcases hmem with ⟨ep, hep, rfl, -⟩ | hmem
  · obtain ⟨⟨k, ep2⟩, hkv, hsnd⟩ := List.mem_map.mp hep
    have : ep = ep2 := (show (k, ep2).2 = ep from hsnd).symm
    subst this
    rw [h1 (k, ep) hkv]
    exact mapLookup_isSome_of_mem hkv
  · simp [mapLookup] at hmem

theorem epminv_loadBatch {env : String → Option EntityPathBatch}
    (hgood : GoodBatches env) {s : EntityPathManagerState}
    (fileInfo : EntityPathDataFileInfo) (h : EPMInv s) :
    EPMInv (loadEntityPathBatch env s fileInfo) := by
  obtain ⟨h1, h2, h3⟩ := h
  unfold loadEntityPathBatch
  by_cases hloaded : (mapLookup s.loadedEntityPathBatches
      fileInfo.filePath).isSome
  · rw [if_pos hloaded]
    exact ⟨h1, h2, h3⟩
  · rw [if_neg hloaded]
    cases henv : env fileInfo.filePath with
    | none => exact ⟨h1, h2, h3⟩
    | some batch =>
      have hentities := hgood fileInfo.filePath batch henv
      have hm1 : ∀ kv ∈ batch.entities.foldl
          (fun m e => mapSet m e.id (toEntityPath e)) s.entityPathsById,
          kv.2.entityId = kv.1 := by
        intro kv hkv
        rcases mem_entitiesFold batch.entities _ kv hkv with h | ⟨e, -, rfl⟩
        · exact h1 kv h
        · rfl
      have hm2 : ∀ kv ∈ batch.entities.foldl
          (fun m e => mapSet m e.id (toEntityPath e)) s.entityPathsById,
          kv.2.path ≠ [] := by
        intro kv hkv
        rcases mem_entitiesFold batch.entities _ kv hkv with h | ⟨e, he, rfl⟩
        · exact h2 kv h
        · simpa [toEntityPath] using hentities e he
      refine ⟨hm1, hm2, ?_⟩
      intro b ids hlook id hid
      have hmem : id ∈ (mapLookup (updateTimelineIndex s.timelineIndex
          ((batch.entities.foldl (fun m e => mapSet m e.id (toEntityPath e))
            s.entityPathsById).map Prod.snd)) b).getD [] := by
        rw [hlook]
        exact hid
      rw [mem_updateTimelineIndex] at hmem
      rcases hmem with ⟨ep, hep, rfl, -⟩ | hmem
      · obtain ⟨⟨k, ep2⟩, hkv, hsnd⟩ := List.mem_map.mp hep
        have : ep = ep2 := (show (k, ep2).2 = ep from hsnd).symm
        subst this
        rw [hm1 (k, ep) hkv]
        exact mapLookup_isSome_of_mem hkv
      · have hold : (mapLookup s.entityPathsById id).isSome := by
          cases hidx : mapLookup s.timelineIndex b with
          | none =>
            rw [hidx] at hmem
            simp at hmem
          | some ids0 =>
            rw [hidx] at hmem
            exact h3 b ids0 hidx id (by simpa using hmem)
        exact isSome_entitiesFold_mono batch.entities _ id hold

theorem epminv_exec {env : String → Option EntityPathBatch}
    (hgood : GoodBatches env) {s : EntityPathManagerState} (op : EPMOp)
    (h : EPMInv s) : EPMInv (execEPMOp env s op) := by
  have hfold : ∀ (files : List EntityPathDataFileInfo)
      (s0 : EntityPathManagerState), EPMInv s0 →
      EPMInv (files.foldl (fun st f => loadEntityPathBatch env st f) s0) := by
    intro files
    induction files with
    | nil => exact fun s0 h0 => h0
    | cons f fs ih =>
      intro s0 h0
      simp only [List.foldl_cons]
      exact ih _ (epminv_loadBatch hgood f h0)
  have hclear : EPMInv (⟨[], [], []⟩ : EntityPathManagerState) := by
    refine ⟨?_, ?_, ?_⟩ <;> simp [mapLookup]
  cases op with
  | loadBatch fileInfo => exact epminv_loadBatch hgood fileInfo h
  | preprocess => exact epminv_preprocess h
  | clear => exact hclear
  | loadForActive repl =>
    show EPMInv (loadEntityPathDataForActiveReplication env repl s).2
    unfold loadEntityPathDataForActiveReplication
    cases getActiveReplication repl with
    | none => exact h
    | some rep =>
      dsimp only
      by_cases hfiles : rep.entityPathDataFiles = []
      · rw [if_pos hfiles]
        exact hclear
      · rw [if_neg hfiles]
        exact epminv_preprocess (hfold rep.entityPathDataFiles _ hclear)
  | loadForRange repl a b =>
    show EPMInv (loadEntityPathsForTimeRange env repl s a b)
    unfold loadEntityPathsForTimeRange
    cases getActiveReplication repl with
    | none => exact h
    | some rep => exact hfold _ _ h

/-- **C10 (amended).** Provided every loaded batch registers only
entities with non-empty paths — in particular when no batch re-registers
an already-indexed id with an empty path, as the counterexample does —
every reachable state of the manager satisfies the invariant: each
entity id stored in any bucket of the timeline index maps to an entity
with a non-empty path, so the unguarded `path[0]` and
`path[path.length - 1]` accesses in `getEntityIdsAtTime` are in bounds
for ids drawn from the index. -/
theorem timelineIndexSafe_of_goodBatches
    (env : String → Option EntityPathBatch) (hgood : GoodBatches env)
    (ops : List EPMOp) : TimelineIndexSafe (runEPMOps env ops) := by
  have hinv : EPMInv (runEPMOps env ops) := by
    unfold runEPMOps
    have hstart : EPMInv initialEPM := by
      refine ⟨?_, ?_, ?_⟩ <;> simp [initialEPM, mapLookup]
    generalize initialEPM = s0 at hstart ⊢
    induction ops generalizing s0 with
    | nil => exact hstart
    | cons op rest ih =>
      simp only [List.foldl_cons]
      exact ih _ (epminv_exec hgood op hstart)
  obtain ⟨-, h2, h3⟩ := hinv
  intro b ids hlook id hid
  obtain ⟨ep, hep⟩ := Option.isSome_iff_exists.mp (h3 b ids hlook id hid)
  exact ⟨ep, hep, h2 (id, ep) (mapLookup_mem hep)⟩

/-- Witness for the amended C10: the environment serving only the
one-entity batch `b1` is good, and the state after loading it satisfies
the invariant. -/
theorem timelineIndexSafe_of_goodBatches_witness :
    TimelineIndexSafe
      (runEPMOps c8Env [EPMOp.loadBatch ⟨"b1", 0, 100, none⟩]) := by
  apply timelineIndexSafe_of_goodBatches
  intro p b hb
  unfold c8Env at hb
  by_cases hp : p = "b1"
  · rw [if_pos hp] at hb
    cases hb
    intro e he
    simp only [c8Batch, List.mem_singleton] at he
    subst he
    decide
  · rw [if_neg hp] at hb
    cases hb

end AnimationData
